import Mathlib

/-!
# Verification of the EMS Balcony Solar price-list segmentation engine

Shallow embedding of `custom_components/ems_balcony_solar/price_list_api.py`.

Modelling conventions:
* A price-list entry is `Option ℚ`: `some q` embeds a numeric Python value
  (`isinstance(val, (int, float))` holds), `none` embeds any non-numeric entry.
* Python `set[int]` becomes `Finset ℕ`; the mutable `used_indices` set is
  threaded explicitly through the expansion functions.
* Python `datetime` values are embedded as minutes (`ℤ`) from a fixed epoch;
  `timedelta(minutes=m)` is addition, `.replace(hour=0, minute=0, ...)` is
  truncation to a multiple of 1440, `.date()` differences are floor-division
  by 1440.
* Python strings are embedded as `List Char`; `str.split(sep)` for a
  one-character separator is `splitOnChar`.
* The unbounded `while True` expansion loop is embedded with explicit fuel;
  fuel-insensitivity beyond `price_list.length` is proved (claim C8), and the
  wrapper runs the loop with that sufficient fuel.
-/

/-- Numeric-or-not entry of a Python price list: `some q` iff
`isinstance(val, (int, float))`. -/
abbrev PyVal := Option ℚ

/-- `price_list[i]` for an in-range read; out-of-range reads (which would raise
`IndexError` in Python and never occur on the executed paths) default to a
non-numeric value. -/
def nval (price_list : List PyVal) (i : ℕ) : PyVal :=
  price_list.getD i none

/-- The comparison pattern of `find_local_maxima`'s boundary checks:
`isinstance(a) and isinstance(b) and a > b`. -/
def numGT (a b : PyVal) : Bool :=
  match a, b with
  | some x, some y => decide (y < x)
  | _, _ => false

/-- The comparison pattern of `find_local_minima`'s boundary checks:
`isinstance(a) and isinstance(b) and a < b`. -/
def numLT (a b : PyVal) : Bool :=
  match a, b with
  | some x, some y => decide (x < y)
  | _, _ => false

/-- Body of the middle-element loop of `find_local_maxima`: the index is kept
iff its value and both neighbours are numeric and it strictly exceeds both. -/
def isMiddleMax (price_list : List PyVal) (i : ℕ) : Bool :=
  match nval price_list (i - 1), nval price_list i, nval price_list (i + 1) with
  | some prev_val, some curr_val, some next_val =>
      decide (prev_val < curr_val) && decide (next_val < curr_val)
  | _, _, _ => false

/-- Body of the middle-element loop of `find_local_minima`. -/
def isMiddleMin (price_list : List PyVal) (i : ℕ) : Bool :=
  match nval price_list (i - 1), nval price_list i, nval price_list (i + 1) with
  | some prev_val, some curr_val, some next_val =>
      decide (curr_val < prev_val) && decide (curr_val < next_val)
  | _, _, _ => false

/-- Embedding of `find_local_maxima` (price_list_api.py lines 200-258). -/
def find_local_maxima (price_list : List PyVal) : List ℕ :=
  if price_list = [] then []
  else
    let last_idx := price_list.length - 1
    if last_idx = 0 then
      if (nval price_list 0).isSome then [0] else []
    else
      (if numGT (nval price_list 0) (nval price_list 1) then [0] else [])
        ++ (List.range' 1 (last_idx - 1)).filter (isMiddleMax price_list)
        ++ (if numGT (nval price_list last_idx) (nval price_list (last_idx - 1))
            then [last_idx] else [])

/-- Embedding of `find_local_minima` (price_list_api.py lines 261-319). -/
def find_local_minima (price_list : List PyVal) : List ℕ :=
  if price_list = [] then []
  else
    let last_idx := price_list.length - 1
    if last_idx = 0 then
      if (nval price_list 0).isSome then [0] else []
    else
      (if numLT (nval price_list 0) (nval price_list 1) then [0] else [])
        ++ (List.range' 1 (last_idx - 1)).filter (isMiddleMin price_list)
        ++ (if numLT (nval price_list last_idx) (nval price_list (last_idx - 1))
            then [last_idx] else [])

/-! ## The sublist-expansion engine -/

/-- Embedding of `_check_expansion_direction` (price_list_api.py lines 656-675).
The candidate index is an `ℤ` because the backward pointer can reach `-1`. -/
def _check_expansion_direction (price_list : List PyVal) (idx : ℤ)
    (used_indices : Finset ℕ) (minima_indices_set : Finset ℕ)
    (overall_average : ℚ) : Option (ℕ × ℚ) :=
  if idx < 0 ∨ (price_list.length : ℤ) ≤ idx ∨ idx.toNat ∈ used_indices then none
  else
    match nval price_list idx.toNat with
    | none => none
    | some val =>
      if val < overall_average then none
      else
        let is_local_minimum := idx.toNat ∈ minima_indices_set
        if is_local_minimum ∧ val < overall_average then none
        else some (idx.toNat, val)

/-- The two literal strings returned by `_choose_expansion_direction`. -/
inductive Direction
  | forward
  | backward
deriving DecidableEq

/-- Embedding of `_choose_expansion_direction` (lines 678-685): prefers forward
on ties; with both candidates absent it answers backward (its caller never
uses that answer). -/
def _choose_expansion_direction (forward_data backward_data : Option (ℕ × ℚ)) :
    Direction :=
  match forward_data, backward_data with
  | some f, some b => if b.2 ≤ f.2 then .forward else .backward
  | some _, none => .forward
  | none, _ => .backward

/-- State of the `while True` loop of `_expand_around_maximum`: the growing
sublist, its index list, the shared used-indices set, and the two expansion
pointers. -/
structure ExpState where
  sub : List PyVal
  inds : List ℕ
  used : Finset ℕ
  fwd : ℤ
  bwd : ℤ
deriving DecidableEq

/-- The length-cap test at the top of the loop:
`context.target_sublist_length and len(current_sublist) >= target`.
A `None` or `0` target is falsy in Python and imposes no cap. -/
def targetReached (target_sublist_length : Option ℤ) (n : ℕ) : Bool :=
  match target_sublist_length with
  | none => false
  | some t => decide (t ≠ 0) && decide (t ≤ (n : ℤ))

/-- One iteration of the `while True` loop of `_expand_around_maximum`
(lines 615-652): `none` embeds `break`, `some st'` embeds running the body
and looping.  The final wildcard arm is unreachable:
`_choose_expansion_direction` answers `forward` only when `forward_data` is
present, and `backward` with `backward_data` absent only when both are
absent, which the preceding test excludes; in Python neither `if` branch
would fire and the loop would spin forever, but that state never occurs. -/
def expandStep (price_list : List PyVal) (minima_indices_set : Finset ℕ)
    (overall_average : ℚ) (target_sublist_length : Option ℤ)
    (st : ExpState) : Option ExpState :=
  if targetReached target_sublist_length st.sub.length then none
  else if _check_expansion_direction price_list st.fwd st.used
        minima_indices_set overall_average = none ∧
      _check_expansion_direction price_list st.bwd st.used
        minima_indices_set overall_average = none then none
  else
    match _choose_expansion_direction
        (_check_expansion_direction price_list st.fwd st.used
          minima_indices_set overall_average)
        (_check_expansion_direction price_list st.bwd st.used
          minima_indices_set overall_average),
      _check_expansion_direction price_list st.fwd st.used
        minima_indices_set overall_average,
      _check_expansion_direction price_list st.bwd st.used
        minima_indices_set overall_average with
    | .forward, some f, _ =>
        some ⟨st.sub ++ [some f.2], st.inds ++ [f.1],
          insert f.1 st.used, st.fwd + 1, st.bwd⟩
    | .backward, _, some b =>
        some ⟨some b.2 :: st.sub, b.1 :: st.inds,
          insert b.1 st.used, st.fwd, st.bwd - 1⟩
    | _, _, _ => none

/-- The `while True` loop itself, with explicit fuel.  Running out of fuel
returns the current state; `C8_expansion_terminates` shows any fuel
`≥ price_list.length` yields the loop's true (stationary) result. -/
def expandLoop (price_list : List PyVal) (minima_indices_set : Finset ℕ)
    (overall_average : ℚ) (target_sublist_length : Option ℤ) :
    ℕ → ExpState → ExpState
  | 0, st => st
  | fuel + 1, st =>
    match expandStep price_list minima_indices_set overall_average
        target_sublist_length st with
    | none => st
    | some st' =>
        expandLoop price_list minima_indices_set overall_average
          target_sublist_length fuel st'

/-- Embedding of `_expand_around_maximum` (lines 602-653).  The Python
function returns the new sublist and index list and mutates the shared
used-indices set; here the updated set is returned alongside. -/
def _expand_around_maximum (price_list : List PyVal) (max_idx : ℕ)
    (minima_indices_set : Finset ℕ) (overall_average : ℚ)
    (target_sublist_length : Option ℤ) (used_indices : Finset ℕ) :
    (List PyVal × List ℕ) × Finset ℕ :=
  let st := expandLoop price_list minima_indices_set overall_average
    target_sublist_length price_list.length
    ⟨[nval price_list max_idx], [max_idx], insert max_idx used_indices,
      (max_idx : ℤ) + 1, (max_idx : ℤ) - 1⟩
  ((st.sub, st.inds), st.used)

/-- Embedding of the loop body of `_build_sublists_around_maxima`
(lines 589-597).  In the source, `_expand_around_maximum` always returns a
pair of non-empty lists, so the `if sublist_data:` guard always passes and
every visited maximum contributes a sublist. -/
def buildGo (price_list : List PyVal) (minima_indices_set : Finset ℕ)
    (overall_average : ℚ) (target_sublist_length : Option ℤ) :
    List ℕ → Finset ℕ → List (List PyVal × List ℕ)
  | [], _ => []
  | max_idx :: rest, used_indices =>
    if max_idx ∈ used_indices then
      buildGo price_list minima_indices_set overall_average
        target_sublist_length rest used_indices
    else
      let r := _expand_around_maximum price_list max_idx minima_indices_set
        overall_average target_sublist_length used_indices
      r.1 :: buildGo price_list minima_indices_set overall_average
        target_sublist_length rest r.2

/-- Embedding of `_build_sublists_around_maxima` (lines 571-599): the
used-indices set starts empty. -/
def _build_sublists_around_maxima (price_list : List PyVal)
    (maxima_indices : List ℕ) (minima_indices_set : Finset ℕ)
    (overall_average : ℚ) (target_sublist_length : Option ℤ) :
    List (List PyVal × List ℕ) :=
  buildGo price_list minima_indices_set overall_average target_sublist_length
    maxima_indices ∅

/-- `sum(val for val in sublist if isinstance(val, (int, float)))`. -/
def sumNumeric (sublist : List PyVal) : ℚ :=
  (sublist.filterMap id).sum

/-- Embedding of `_sort_and_select_sublists` (lines 714-733).  Python's
`list.sort(key=..., reverse=True)` is a stable descending sort, embedded as
`mergeSort` with the total (Python `try` around the sum can never fire on
numeric-filtered values, so `total` is always the numeric sum).
`combined[:n]` is `take n.toNat`; the two differ only for negative `n`,
which `split_price_list_at_maxima` rejects before this helper runs. -/
def _sort_and_select_sublists (sublists_data : List (List PyVal × List ℕ))
    (number_of_sublists : ℤ) : List (List PyVal) × List (List ℕ) :=
  let combined := sublists_data.map fun p => (sumNumeric p.1, p.1, p.2)
  let sorted := combined.mergeSort fun a b => decide (b.1 ≤ a.1)
  let picked := sorted.take number_of_sublists.toNat
  (picked.map fun x => x.2.1, picked.map fun x => x.2.2)

/-- `sum(numeric_values) / len(numeric_values)` over the numeric entries. -/
def overall_average (price_list : List PyVal) : ℚ :=
  (price_list.filterMap id).sum / ((price_list.filterMap id).length : ℚ)

/-- Embedding of `split_price_list_at_maxima` (lines 516-568). -/
def split_price_list_at_maxima (price_list : List PyVal)
    (number_of_sublists : ℤ) (target_sublist_length : Option ℤ) :
    List (List PyVal) × List (List ℕ) :=
  if price_list = [] ∨ number_of_sublists ≤ 0 then ([], [])
  else
    let numeric_values := price_list.filterMap id
    if numeric_values = [] then ([], [])
    else
      let maxima_indices := find_local_maxima price_list
      if maxima_indices = [] then ([], [])
      else
        let minima_indices_set := (find_local_minima price_list).toFinset
        _sort_and_select_sublists
          (_build_sublists_around_maxima price_list maxima_indices
            minima_indices_set (overall_average price_list)
            target_sublist_length)
          number_of_sublists

/-- Embedding of `split_price_list` (lines 824-857). -/
def split_price_list (price_list : List PyVal) (sublist_length : ℤ)
    (number_of_sublists : ℤ) : List (List PyVal) × List (List ℕ) :=
  if price_list = [] ∨ number_of_sublists ≤ 0 then ([], [])
  else if 0 < sublist_length then
    split_price_list_at_maxima price_list number_of_sublists
      (some sublist_length)
  else
    split_price_list_at_maxima price_list number_of_sublists none

/-- The candidate-eligibility check with the local-minimum rejection clause
removed, for comparison with `_check_expansion_direction` (claim C4: the
clause `is_local_minimum and val < overall_average` can never fire, because
the preceding test already returned `None` when `val < overall_average`). -/
def _check_expansion_direction_no_min_clause (price_list : List PyVal)
    (idx : ℤ) (used_indices : Finset ℕ) (minima_indices_set : Finset ℕ)
    (overall_average : ℚ) : Option (ℕ × ℚ) :=
  if idx < 0 ∨ (price_list.length : ℤ) ≤ idx ∨ idx.toNat ∈ used_indices then none
  else
    match nval price_list idx.toNat with
    | none => none
    | some val =>
      if val < overall_average then none
      else some (idx.toNat, val)

/-! ## The time-range codec

Python strings are `List Char`; timestamps are minutes (`ℤ`) from an epoch. -/

/-- `str.split(sep)` for a one-character separator: splits at every
occurrence, producing `count(sep) + 1` parts. -/
def splitOnChar (c : Char) : List Char → List (List Char)
  | [] => [[]]
  | x :: xs =>
    let r := splitOnChar c xs
    if x = c then [] :: r
    else
      match r with
      | [] => [[x]]
      | h :: t => (x :: h) :: t

/-- Python `int(s)` restricted to non-empty all-digit strings, the only shape
the codec ever produces or that the pipeline feeds it (the embedding omits
Python's tolerance for whitespace, sign characters and underscores). -/
def parseNat (s : List Char) : Option ℕ :=
  if s = [] then none
  else if s.all Char.isDigit then
    some (s.foldl (fun acc c => 10 * acc + (c.toNat - 48)) 0)
  else none

/-- Decimal digit string of `n` (most significant digit first); empty for 0,
which never reaches the output because `fmt2` pads below 10. -/
def natChars (n : ℕ) : List Char :=
  ((Nat.digits 10 n).map Nat.digitChar).reverse

/-- Python `f"{n:02d}"` for a non-negative `n`. -/
def fmt2 (n : ℕ) : List Char :=
  if n < 10 then ['0', Nat.digitChar n] else natChars n

/-- `strftime('%H:%M')` of a minutes-timestamp. -/
def fmtHM (t : ℤ) : List Char :=
  let hm := (t % 1440).toNat
  fmt2 (hm / 60) ++ [':'] ++ fmt2 (hm % 60)

/-- Embedding of `_format_time_range` (price_list_api.py lines 383-413).
`.date()` differences in days are floor-division differences by 1440 (for
the positive divisor 1440, `Int./` is floor division); with natural indices
both offsets are non-negative, so `%02d` is `fmt2`. -/
def _format_time_range (start_idx end_idx : ℕ) (base_time : ℤ) : List Char :=
  let start_time := base_time + 15 * start_idx
  let end_time := base_time + 15 * (end_idx + 1)
  let start_day_offset := (start_time / 1440 - base_time / 1440).toNat
  let end_day_offset := (end_time / 1440 - base_time / 1440).toNat
  fmtHM start_time ++ ['+'] ++ fmt2 start_day_offset ++ ['-']
    ++ fmtHM end_time ++ ['+'] ++ fmt2 end_day_offset

/-- The run-grouping loop of `convert_indices_to_time_ranges`: splits an index
list into maximal runs of consecutive indices. -/
def runsGo (run_start run_end : ℕ) : List ℕ → List (ℕ × ℕ)
  | [] => [(run_start, run_end)]
  | x :: xs =>
    if x = run_end + 1 then runsGo run_start x xs
    else (run_start, run_end) :: runsGo x x xs

/-- Embedding of `convert_indices_to_time_ranges` (lines 322-380) with an
explicit `start_time`. -/
def convert_indices_to_time_ranges (indices_list : List (List ℕ))
    (start_time : ℤ) : List (List (List Char)) :=
  if indices_list = [] then []
  else
    indices_list.map fun idx_list =>
      match idx_list with
      | [] => []
      | x :: xs => (runsGo x x xs).map fun r => _format_time_range r.1 r.2 start_time

/-- `start_str.split("+")` handling of one endpoint of the range: offset part
present (exactly one `+`, integer day offset) or legacy (no `+`, offset 0).
Any other shape raises `ValueError` in the source. -/
def parsePart (s : List Char) : Option (List Char × ℕ) :=
  if '+' ∈ s then
    match splitOnChar '+' s with
    | [time_str, day_str] => (parseNat day_str).map fun d => (time_str, d)
    | _ => none
  else some (s, 0)

/-- `map(int, time_str.split(":"))` unpacked into exactly two components. -/
def parseHM (s : List Char) : Option (ℕ × ℕ) :=
  match splitOnChar ':' s with
  | [hs, ms] =>
    match parseNat hs, parseNat ms with
    | some h, some m => some (h, m)
    | _, _ => none
  | _ => none

/-- Embedding of `parse_time_range_to_timestamps` (lines 416-513).  `none`
embeds the raised `ValueError`.  The hour/minute bounds checks embed
`datetime.replace`'s range validation.  The final conditional is the legacy
overnight adjustment: one day is added to the end instant iff no `+` occurs
anywhere in the string and the end instant is ≤ the start instant. -/
def parse_time_range_to_timestamps (time_range : List Char)
    (reference_date : ℤ) : Option (ℤ × ℤ) :=
  match splitOnChar '-' time_range with
  | [start_str, end_str] =>
    match parsePart start_str, parsePart end_str with
    | some (start_time_str, start_day_offset),
      some (end_time_str, end_day_offset) =>
      match parseHM start_time_str, parseHM end_time_str with
      | some (start_hour, start_min), some (end_hour, end_min) =>
        if start_hour ≤ 23 ∧ start_min ≤ 59 ∧ end_hour ≤ 23 ∧ end_min ≤ 59 then
          let base_date := reference_date - reference_date % 1440
          let start_timestamp :=
            base_date + 60 * start_hour + start_min + 1440 * start_day_offset
          let end_timestamp :=
            base_date + 60 * end_hour + end_min + 1440 * end_day_offset
          if '+' ∉ time_range ∧ end_timestamp ≤ start_timestamp then
            some (start_timestamp, end_timestamp + 1440)
          else
            some (start_timestamp, end_timestamp)
        else none
      | _, _ => none
    | _, _ => none
  | _ => none

/-- The same parser with the legacy overnight adjustment (source lines
503-504) removed: it returns the raw decoded instants.  Used to state claim
C5's characterization of exactly when the adjustment fires. -/
def parseTimeRangeNoLegacyAdjust (time_range : List Char)
    (reference_date : ℤ) : Option (ℤ × ℤ) :=
  match splitOnChar '-' time_range with
  | [start_str, end_str] =>
    match parsePart start_str, parsePart end_str with
    | some (start_time_str, start_day_offset),
      some (end_time_str, end_day_offset) =>
      match parseHM start_time_str, parseHM end_time_str with
      | some (start_hour, start_min), some (end_hour, end_min) =>
        if start_hour ≤ 23 ∧ start_min ≤ 59 ∧ end_hour ≤ 23 ∧ end_min ≤ 59 then
          let base_date := reference_date - reference_date % 1440
          let start_timestamp :=
            base_date + 60 * start_hour + start_min + 1440 * start_day_offset
          let end_timestamp :=
            base_date + 60 * end_hour + end_min + 1440 * end_day_offset
          some (start_timestamp, end_timestamp)
        else none
      | _, _ => none
    | _, _ => none
  | _ => none

/-- Count of in-range indices not yet claimed: the loop's termination
measure. -/
def freeCount (l : List PyVal) (st : ExpState) : ℕ :=
  ((Finset.range l.length).filter (· ∉ st.used)).card

/-! ## Lowest-price-period lookup -/

/-- One entry of the annotated price list consumed by
`get_lowest_price_period`: the values of the `start`, `end` and `value` keys
(`none` embeds a missing or non-numeric entry; `stop` stands for the
Python key `end`, a reserved word in Lean). -/
structure PriceEntry where
  start : Option ℤ
  stop : Option ℤ
  value : Option ℚ
deriving DecidableEq

/-- The result dictionary of `get_lowest_price_period`. -/
structure LowestPeriod where
  start_time : Option ℤ
  end_time : Option ℤ
  average_price : ℚ
deriving DecidableEq

/-- `price_list[i : i + d]`. -/
def window (price_list : List PriceEntry) (d i : ℕ) : List PriceEntry :=
  (price_list.drop i).take d

/-- The mean computed for one window: numeric values summed, divided by the
window length. -/
def windowAvg (price_list : List PriceEntry) (d i : ℕ) : ℚ :=
  ((window price_list d i).filterMap PriceEntry.value).sum
    / ((window price_list d i).length : ℚ)

/-- The result dictionary built for the window at `i`:
`period[0].get("start")`, `period[-1].get("end")`, and the window mean. -/
def mkPeriod (price_list : List PriceEntry) (d i : ℕ) : LowestPeriod :=
  ⟨(window price_list d i).head?.bind PriceEntry.start,
    (window price_list d i).getLast?.bind PriceEntry.stop,
    windowAvg price_list d i⟩

/-- Embedding of `get_lowest_price_period` (lines 920-959).  The
`float("inf")` sentinel paired with the `None` period is the `none`
accumulator: the first window always replaces it, as every rational is below
infinity. -/
def get_lowest_price_period (price_list : List PriceEntry)
    (duration_hours : ℤ) : Option LowestPeriod :=
  if price_list = [] ∨ duration_hours < 1 then none
  else
    let d := duration_hours.toNat
    let num_windows := ((price_list.length : ℤ) - duration_hours + 1).toNat
    ((List.range num_windows).foldl
      (fun acc i =>
        match acc with
        | none => some (windowAvg price_list d i, mkPeriod price_list d i)
        | some (lowest_avg, lowest_period) =>
          if windowAvg price_list d i < lowest_avg then
            some (windowAvg price_list d i, mkPeriod price_list d i)
          else some (lowest_avg, lowest_period))
      none).map fun x => x.2


/-! ## Proofs -/

example : find_local_maxima [some 1, some 3, some 2, some 5, some 4] = [1, 3] := by decide
example : find_local_minima [some 1, some 3, some 2, some 5, some 4] = [0, 2, 4] := by decide
example : find_local_maxima [some 5, some 0, some 1, some 0] = [0, 2] := by decide
example : find_local_minima [some 5, some 0, some 1, some 0] = [1, 3] := by decide


/-! ## Characterization of the extrema finders (shared helper lemmas) -/

lemma numGT_iff (a b : PyVal) :
    numGT a b = true ↔ ∃ x y : ℚ, a = some x ∧ b = some y ∧ y < x := by
  cases a <;> cases b <;> simp [numGT]

lemma numLT_iff (a b : PyVal) :
    numLT a b = true ↔ ∃ x y : ℚ, a = some x ∧ b = some y ∧ x < y := by
  cases a <;> cases b <;> simp [numLT]

lemma isMiddleMax_iff (l : List PyVal) (i : ℕ) :
    isMiddleMax l i = true ↔
      ∃ p c n : ℚ, nval l (i - 1) = some p ∧ nval l i = some c ∧
        nval l (i + 1) = some n ∧ p < c ∧ n < c := by
  unfold isMiddleMax
  cases nval l (i - 1) <;> cases nval l i <;> cases nval l (i + 1) <;> simp

lemma isMiddleMin_iff (l : List PyVal) (i : ℕ) :
    isMiddleMin l i = true ↔
      ∃ p c n : ℚ, nval l (i - 1) = some p ∧ nval l i = some c ∧
        nval l (i + 1) = some n ∧ c < p ∧ c < n := by
  unfold isMiddleMin
  cases nval l (i - 1) <;> cases nval l i <;> cases nval l (i + 1) <;> simp

/-- Membership in the common `first ++ middle-filter ++ last` shape of both
extrema finders. -/
lemma extrema_shape_mem (b1 bl : Bool) (p : ℕ → Bool) (last_idx : ℕ)
    (h : 1 ≤ last_idx) (i : ℕ) :
    (i ∈ (if b1 then [0] else [])
        ++ (List.range' 1 (last_idx - 1)).filter p
        ++ (if bl then [last_idx] else [])) ↔
      (i = 0 ∧ b1 = true) ∨ (1 ≤ i ∧ i < last_idx ∧ p i = true) ∨
        (i = last_idx ∧ bl = true) := by
  have hr : 1 + (last_idx - 1) = last_idx := by omega
  constructor
  · intro hi
    rcases List.mem_append.1 hi with hi | hi
    · rcases List.mem_append.1 hi with hi | hi
      · split at hi <;> simp_all
      · rcases List.mem_filter.1 hi with ⟨hmem, hp⟩
        have := List.mem_range'_1.1 hmem
        exact Or.inr (Or.inl ⟨this.1, by omega, hp⟩)
    · split at hi <;> simp_all
  · intro hi
    rcases hi with ⟨rfl, hb⟩ | ⟨h1, h2, hp⟩ | ⟨rfl, hb⟩
    · exact List.mem_append.2 (Or.inl (List.mem_append.2 (Or.inl (by simp [hb]))))
    · refine List.mem_append.2 (Or.inl (List.mem_append.2 (Or.inr ?_)))
      exact List.mem_filter.2 ⟨List.mem_range'_1.2 ⟨h1, by omega⟩, hp⟩
    · exact List.mem_append.2 (Or.inr (by simp [hb]))

/-- Sortedness of the common shape of both extrema finders. -/
lemma extrema_shape_sorted (b1 bl : Bool) (p : ℕ → Bool) (last_idx : ℕ)
    (h : 1 ≤ last_idx) :
    List.Sorted (· < ·)
      ((if b1 then [0] else [])
        ++ (List.range' 1 (last_idx - 1)).filter p
        ++ (if bl then [last_idx] else [])) := by
  have hmid : ∀ i ∈ (List.range' 1 (last_idx - 1)).filter p,
      1 ≤ i ∧ i < last_idx := by
    intro i hi
    have := List.mem_range'_1.1 (List.mem_filter.1 hi).1
    omega
  have hmid_sorted : List.Pairwise (· < ·) ((List.range' 1 (last_idx - 1)).filter p) :=
    List.Pairwise.filter p (List.pairwise_lt_range' 1 (last_idx - 1))
  rw [List.Sorted, List.pairwise_append, List.pairwise_append]
  refine ⟨⟨?_, hmid_sorted, ?_⟩, ?_, ?_⟩
  · split <;> simp
  · intro a ha i hi
    have : a = 0 := by split at ha <;> simp_all
    have := hmid i hi
    omega
  · split <;> simp
  · intro a ha b hb
    have hb' : b = last_idx := by split at hb <;> simp_all
    rcases List.mem_append.1 ha with ha | ha
    · have : a = 0 := by split at ha <;> simp_all
      omega
    · have := hmid a ha
      omega

/-- Unfolding of `find_local_maxima` for lists of length at least 2. -/
lemma find_local_maxima_eq_shape (l : List PyVal) (hl : 2 ≤ l.length) :
    find_local_maxima l =
      (if numGT (nval l 0) (nval l 1) then [0] else [])
        ++ (List.range' 1 (l.length - 1 - 1)).filter (isMiddleMax l)
        ++ (if numGT (nval l (l.length - 1)) (nval l (l.length - 1 - 1))
            then [l.length - 1] else []) := by
  have hne : l ≠ [] := by intro h; simp [h] at hl
  have hlast : ¬ l.length - 1 = 0 := by omega
  simp only [find_local_maxima, hne, if_false, hlast]

/-- Unfolding of `find_local_minima` for lists of length at least 2. -/
lemma find_local_minima_eq_shape (l : List PyVal) (hl : 2 ≤ l.length) :
    find_local_minima l =
      (if numLT (nval l 0) (nval l 1) then [0] else [])
        ++ (List.range' 1 (l.length - 1 - 1)).filter (isMiddleMin l)
        ++ (if numLT (nval l (l.length - 1)) (nval l (l.length - 1 - 1))
            then [l.length - 1] else []) := by
  have hne : l ≠ [] := by intro h; simp [h] at hl
  have hlast : ¬ l.length - 1 = 0 := by omega
  simp only [find_local_minima, hne, if_false, hlast]

lemma mem_find_local_maxima_iff (l : List PyVal) (hl : 2 ≤ l.length) (i : ℕ) :
    i ∈ find_local_maxima l ↔
      (i = 0 ∧ numGT (nval l 0) (nval l 1) = true) ∨
      (1 ≤ i ∧ i < l.length - 1 ∧ isMiddleMax l i = true) ∨
      (i = l.length - 1 ∧
        numGT (nval l (l.length - 1)) (nval l (l.length - 1 - 1)) = true) := by
  rw [find_local_maxima_eq_shape l hl]
  exact extrema_shape_mem _ _ _ (l.length - 1) (by omega) i

lemma mem_find_local_minima_iff (l : List PyVal) (hl : 2 ≤ l.length) (i : ℕ) :
    i ∈ find_local_minima l ↔
      (i = 0 ∧ numLT (nval l 0) (nval l 1) = true) ∨
      (1 ≤ i ∧ i < l.length - 1 ∧ isMiddleMin l i = true) ∨
      (i = l.length - 1 ∧
        numLT (nval l (l.length - 1)) (nval l (l.length - 1 - 1)) = true) := by
  rw [find_local_minima_eq_shape l hl]
  exact extrema_shape_mem _ _ _ (l.length - 1) (by omega) i

lemma find_local_maxima_sorted (l : List PyVal) :
    List.Sorted (· < ·) (find_local_maxima l) := by
  rcases Nat.lt_or_ge l.length 2 with hl | hl
  · unfold find_local_maxima
    split
    · simp
    · rename_i hne
      have h1 : l.length - 1 = 0 := by
        cases l with
        | nil => exact absurd rfl hne
        | cons a t => simp only [List.length_cons] at hl ⊢; omega
      simp only [h1, if_pos]
      split <;> simp
  · rw [find_local_maxima_eq_shape l hl]
    exact extrema_shape_sorted _ _ _ (l.length - 1) (by omega)

lemma find_local_minima_sorted (l : List PyVal) :
    List.Sorted (· < ·) (find_local_minima l) := by
  rcases Nat.lt_or_ge l.length 2 with hl | hl
  · unfold find_local_minima
    split
    · simp
    · rename_i hne
      have h1 : l.length - 1 = 0 := by
        cases l with
        | nil => exact absurd rfl hne
        | cons a t => simp only [List.length_cons] at hl ⊢; omega
      simp only [h1, if_pos]
      split <;> simp
  · rw [find_local_minima_eq_shape l hl]
    exact extrema_shape_sorted _ _ _ (l.length - 1) (by omega)

lemma mem_find_local_maxima_lt_length (l : List PyVal) (i : ℕ)
    (hi : i ∈ find_local_maxima l) : i < l.length := by
  rcases Nat.lt_or_ge l.length 2 with hl | hl
  · unfold find_local_maxima at hi
    split at hi
    · simp at hi
    · rename_i hne
      have hlen : 1 ≤ l.length := by
        cases l with
        | nil => exact absurd rfl hne
        | cons a t => simp
      have h1 : l.length - 1 = 0 := by omega
      simp only [h1, if_pos] at hi
      split at hi <;> simp_all
      omega
  · rcases (mem_find_local_maxima_iff l hl i).1 hi with
      ⟨rfl, _⟩ | ⟨_, h2, _⟩ | ⟨rfl, _⟩ <;> omega


/-! ## Claim C4: the local-minimum rejection clause is redundant -/

/-- C4: for every price list, candidate index, used-indices set, minima set
and overall average, `_check_expansion_direction` returns the same result as
the variant with the `is_local_minimum and val < overall_average` branch
removed: that branch's condition is never true when reached, since the
preceding check already requires `val >= overall_average`. -/
theorem C4_min_clause_redundant :
    ∀ (price_list : List PyVal) (idx : ℤ) (used_indices : Finset ℕ)
      (minima_indices_set : Finset ℕ) (avg : ℚ),
      _check_expansion_direction price_list idx used_indices
          minima_indices_set avg =
        _check_expansion_direction_no_min_clause price_list idx used_indices
          minima_indices_set avg := by
  intro l idx used minima avg
  unfold _check_expansion_direction _check_expansion_direction_no_min_clause
  split
  · rfl
  · cases h : nval l idx.toNat with
    | none => rfl
    | some val =>
      by_cases hv : val < avg
      · simp [hv]
      · simp [hv]

/-! ## Claim C3: characterization of the extrema finders -/

/-- C3: `find_local_maxima` returns exactly index 0 when the first two
entries are numeric with `l[0] > l[1]`, every middle index that strictly
exceeds its two numeric neighbours, and the last index against its single
neighbour; a single-element list yields its sole index iff numeric, where
minima and maxima coincide; the empty list yields `[]`; the result is
strictly ascending; and `find_local_minima` satisfies the symmetric rule
with `<`. -/
theorem C3_extrema_characterization :
    (find_local_maxima [] = [] ∧ find_local_minima [] = []) ∧
    (∀ x : PyVal,
      find_local_maxima [x] = (if x.isSome then [0] else []) ∧
      find_local_minima [x] = find_local_maxima [x]) ∧
    (∀ l : List PyVal, 2 ≤ l.length →
      ((0 ∈ find_local_maxima l ↔
          ∃ a b : ℚ, nval l 0 = some a ∧ nval l 1 = some b ∧ b < a) ∧
        (∀ i, 0 < i → i < l.length - 1 →
          (i ∈ find_local_maxima l ↔
            ∃ p c n : ℚ, nval l (i - 1) = some p ∧ nval l i = some c ∧
              nval l (i + 1) = some n ∧ p < c ∧ n < c)) ∧
        (l.length - 1 ∈ find_local_maxima l ↔
          ∃ a b : ℚ, nval l (l.length - 1) = some a ∧
            nval l (l.length - 2) = some b ∧ b < a)) ∧
      ((0 ∈ find_local_minima l ↔
          ∃ a b : ℚ, nval l 0 = some a ∧ nval l 1 = some b ∧ a < b) ∧
        (∀ i, 0 < i → i < l.length - 1 →
          (i ∈ find_local_minima l ↔
            ∃ p c n : ℚ, nval l (i - 1) = some p ∧ nval l i = some c ∧
              nval l (i + 1) = some n ∧ c < p ∧ c < n)) ∧
        (l.length - 1 ∈ find_local_minima l ↔
          ∃ a b : ℚ, nval l (l.length - 1) = some a ∧
            nval l (l.length - 2) = some b ∧ a < b))) ∧
    (∀ l : List PyVal,
      List.Sorted (· < ·) (find_local_maxima l) ∧
      List.Sorted (· < ·) (find_local_minima l)) := by
  refine ⟨⟨rfl, rfl⟩, fun x => ⟨rfl, rfl⟩, fun l hl => ⟨⟨?_, ?_, ?_⟩, ?_, ?_, ?_⟩,
    fun l => ⟨find_local_maxima_sorted l, find_local_minima_sorted l⟩⟩
  · rw [mem_find_local_maxima_iff l hl, ← numGT_iff]
    constructor
    · rintro (⟨-, h⟩ | ⟨h, -⟩ | ⟨h, -⟩) <;> first | exact h | omega
    · exact fun h => Or.inl ⟨rfl, h⟩
  · intro i h0 hlt
    rw [mem_find_local_maxima_iff l hl, ← isMiddleMax_iff]
    constructor
    · rintro (⟨h, -⟩ | ⟨-, -, h⟩ | ⟨h, -⟩) <;> first | omega | exact h
    · exact fun h => Or.inr (Or.inl ⟨by omega, hlt, h⟩)
  · have h2 : l.length - 1 - 1 = l.length - 2 := by omega
    rw [mem_find_local_maxima_iff l hl, h2, ← numGT_iff]
    constructor
    · rintro (⟨h, -⟩ | ⟨-, h, -⟩ | ⟨-, h⟩) <;> first | omega | exact h
    · exact fun h => Or.inr (Or.inr ⟨rfl, h⟩)
  · rw [mem_find_local_minima_iff l hl, ← numLT_iff]
    constructor
    · rintro (⟨-, h⟩ | ⟨h, -⟩ | ⟨h, -⟩) <;> first | exact h | omega
    · exact fun h => Or.inl ⟨rfl, h⟩
  · intro i h0 hlt
    rw [mem_find_local_minima_iff l hl, ← isMiddleMin_iff]
    constructor
    · rintro (⟨h, -⟩ | ⟨-, -, h⟩ | ⟨h, -⟩) <;> first | omega | exact h
    · exact fun h => Or.inr (Or.inl ⟨by omega, hlt, h⟩)
  · have h2 : l.length - 1 - 1 = l.length - 2 := by omega
    rw [mem_find_local_minima_iff l hl, h2, ← numLT_iff]
    constructor
    · rintro (⟨h, -⟩ | ⟨-, h, -⟩ | ⟨-, h⟩) <;> first | omega | exact h
    · exact fun h => Or.inr (Or.inr ⟨rfl, h⟩)

/-- Closed instance of C3: the middle-index rule applied to the spec's
scenario list `[1, 3, 2, 5, 4]` at index 1. -/
theorem C3_witness :
    1 ∈ find_local_maxima [some 1, some 3, some 2, some 5, some 4] :=
  ((C3_extrema_characterization.2.2.1
      [some 1, some 3, some 2, some 5, some 4] (by decide)).1.2.1
    1 (by decide) (by decide)).2
    ⟨1, 3, 2, rfl, rfl, rfl, by decide, by decide⟩

/-! ## Analysis of the expansion loop -/

/-- What a successful candidate check guarantees. -/
lemma check_some_facts {l : List PyVal} {idx : ℤ} {used minima : Finset ℕ}
    {avg : ℚ} {i : ℕ} {v : ℚ}
    (h : _check_expansion_direction l idx used minima avg = some (i, v)) :
    idx = (i : ℤ) ∧ i < l.length ∧ i ∉ used ∧ nval l i = some v ∧ avg ≤ v := by
  unfold _check_expansion_direction at h
  split at h
  · exact absurd h (by simp)
  · rename_i hguard
    push_neg at hguard
    obtain ⟨h0, hlen, hused⟩ := hguard
    cases hv : nval l idx.toNat with
    | none => rw [hv] at h; exact absurd h (by simp)
    | some val =>
      rw [hv] at h
      by_cases hlt : val < avg
      · simp only [if_pos hlt] at h
        exact absurd h (by simp)
      · simp only [if_neg hlt, if_neg (fun hc => hlt (And.right hc)),
          Option.some.injEq, Prod.mk.injEq] at h
        obtain ⟨hi, hv'⟩ := h
        subst hi; subst hv'
        refine ⟨(Int.toNat_of_nonneg (by omega)).symm, by omega, hused, hv,
          not_lt.1 hlt⟩

/-- What one non-breaking loop iteration does: it claims one fresh in-range
index whose value is numeric and at least the overall average, appending it
forward or prepending it backward. -/
lemma expandStep_some {l : List PyVal} {minima : Finset ℕ} {avg : ℚ}
    {target : Option ℤ} {st st' : ExpState}
    (h : expandStep l minima avg target st = some st') :
    ∃ i v, i ∉ st.used ∧ i < l.length ∧ nval l i = some v ∧ avg ≤ v ∧
      ((st' = ⟨st.sub ++ [some v], st.inds ++ [i], insert i st.used,
          st.fwd + 1, st.bwd⟩ ∧ (i : ℤ) = st.fwd) ∨
        (st' = ⟨some v :: st.sub, i :: st.inds, insert i st.used,
          st.fwd, st.bwd - 1⟩ ∧ (i : ℤ) = st.bwd)) := by
  unfold expandStep at h
  split at h
  · exact absurd h (by simp)
  · cases hfd : _check_expansion_direction l st.fwd st.used minima avg with
    | none =>
      cases hbd : _check_expansion_direction l st.bwd st.used minima avg with
      | none => rw [hfd, hbd] at h; simp at h
      | some b =>
        rw [hfd, hbd] at h
        rw [if_neg (by simp)] at h
        simp only [_choose_expansion_direction] at h
        obtain ⟨hbw, hlen, hused, hval, havg⟩ := check_some_facts hbd
        injection h with h'
        exact ⟨b.1, b.2, hused, hlen, hval, havg, Or.inr ⟨h'.symm, hbw.symm⟩⟩
    | some f =>
      cases hbd : _check_expansion_direction l st.bwd st.used minima avg with
      | none =>
        rw [hfd, hbd] at h
        rw [if_neg (by simp)] at h
        simp only [_choose_expansion_direction] at h
        obtain ⟨hfw, hlen, hused, hval, havg⟩ := check_some_facts hfd
        injection h with h'
        exact ⟨f.1, f.2, hused, hlen, hval, havg, Or.inl ⟨h'.symm, hfw.symm⟩⟩
      | some b =>
        rw [hfd, hbd] at h
        rw [if_neg (by simp)] at h
        by_cases hc : b.2 ≤ f.2
        · simp only [_choose_expansion_direction, if_pos hc] at h
          obtain ⟨hfw, hlen, hused, hval, havg⟩ := check_some_facts hfd
          injection h with h'
          exact ⟨f.1, f.2, hused, hlen, hval, havg, Or.inl ⟨h'.symm, hfw.symm⟩⟩
        · simp only [_choose_expansion_direction, if_neg hc] at h
          obtain ⟨hbw, hlen, hused, hval, havg⟩ := check_some_facts hbd
          injection h with h'
          exact ⟨b.1, b.2, hused, hlen, hval, havg, Or.inr ⟨h'.symm, hbw.symm⟩⟩

/-- Generic invariant preservation through the expansion loop. -/
lemma expandLoop_invariant {l : List PyVal} {minima : Finset ℕ} {avg : ℚ}
    {target : Option ℤ} (P : ExpState → Prop)
    (hstep : ∀ st st', P st → expandStep l minima avg target st = some st' →
      P st') :
    ∀ fuel st, P st → P (expandLoop l minima avg target fuel st) := by
  intro fuel
  induction fuel with
  | zero => exact fun st h => h
  | succ n ih =>
    intro st h
    rw [expandLoop]
    cases hs : expandStep l minima avg target st with
    | none => exact h
    | some st' => exact ih st' (hstep st st' h hs)

lemma expandStep_freeCount {l : List PyVal} {minima : Finset ℕ} {avg : ℚ}
    {target : Option ℤ} {st st' : ExpState}
    (h : expandStep l minima avg target st = some st') :
    freeCount l st' < freeCount l st := by
  obtain ⟨i, v, hused, hlen, -, -, hcase⟩ := expandStep_some h
  have hu : st'.used = insert i st.used := by
    rcases hcase with ⟨rfl, -⟩ | ⟨rfl, -⟩ <;> rfl
  have hsub : (Finset.range l.length).filter (· ∉ st'.used) ⊆
      ((Finset.range l.length).filter (· ∉ st.used)).erase i := by
    intro j hj
    rw [Finset.mem_filter] at hj
    rw [Finset.mem_erase, Finset.mem_filter]
    have hj2 := hj.2
    rw [hu, Finset.mem_insert] at hj2
    push_neg at hj2
    exact ⟨hj2.1, hj.1, hj2.2⟩
  calc ((Finset.range l.length).filter (· ∉ st'.used)).card
      ≤ (((Finset.range l.length).filter (· ∉ st.used)).erase i).card :=
        Finset.card_le_card hsub
    _ < ((Finset.range l.length).filter (· ∉ st.used)).card := by
        apply Finset.card_erase_lt_of_mem
        rw [Finset.mem_filter, Finset.mem_range]
        exact ⟨hlen, by simpa using hused⟩

lemma expandStep_none_of_freeCount_zero {l : List PyVal} {minima : Finset ℕ}
    {avg : ℚ} {target : Option ℤ} {st : ExpState}
    (h : freeCount l st = 0) :
    expandStep l minima avg target st = none := by
  cases hs : expandStep l minima avg target st with
  | none => rfl
  | some st' =>
    obtain ⟨i, v, hused, hlen, -, -, -⟩ := expandStep_some hs
    have hmem : i ∈ (Finset.range l.length).filter (· ∉ st.used) := by
      rw [Finset.mem_filter, Finset.mem_range]
      exact ⟨hlen, by simpa using hused⟩
    unfold freeCount at h
    rw [Finset.card_eq_zero] at h
    rw [h] at hmem
    exact absurd hmem (Finset.not_mem_empty i)

lemma expandLoop_of_freeCount_zero {l : List PyVal} {minima : Finset ℕ}
    {avg : ℚ} {target : Option ℤ} {st : ExpState}
    (h : freeCount l st = 0) (fuel : ℕ) :
    expandLoop l minima avg target fuel st = st := by
  cases fuel with
  | zero => rfl
  | succ n => rw [expandLoop, expandStep_none_of_freeCount_zero h]

/-- The loop's result does not depend on the fuel once the fuel covers the
number of still-unclaimed in-range indices. -/
lemma expandLoop_fuel_indep {l : List PyVal} {minima : Finset ℕ} {avg : ℚ}
    {target : Option ℤ} :
    ∀ (f₁ f₂ : ℕ) (st : ExpState), freeCount l st ≤ f₁ → freeCount l st ≤ f₂ →
      expandLoop l minima avg target f₁ st =
        expandLoop l minima avg target f₂ st := by
  intro f₁
  induction f₁ with
  | zero =>
    intro f₂ st h1 h2
    have h0 : freeCount l st = 0 := by omega
    rw [expandLoop_of_freeCount_zero h0, expandLoop_of_freeCount_zero h0]
  | succ n ih =>
    intro f₂ st h1 h2
    cases f₂ with
    | zero =>
      have h0 : freeCount l st = 0 := by omega
      rw [expandLoop_of_freeCount_zero h0, expandLoop_of_freeCount_zero h0]
    | succ m =>
      rw [expandLoop, expandLoop]
      cases hs : expandStep l minima avg target st with
      | none => rfl
      | some st' =>
        have hlt := expandStep_freeCount hs
        exact ih m st' (by omega) (by omega)

lemma freeCount_le_length (l : List PyVal) (st : ExpState) :
    freeCount l st ≤ l.length := by
  calc ((Finset.range l.length).filter (· ∉ st.used)).card
      ≤ (Finset.range l.length).card := Finset.card_filter_le _ _
    _ = l.length := Finset.card_range _

/-! ## Claim C8: the expansion loop terminates -/

/-- C8: the unbounded `while True` expansion loop reaches its `break` within
`price_list.length` iterations for every price list, seed state and context,
because each iteration that does not break claims a fresh in-range index:
running the fuelled loop with any budget of at least `price_list.length`
steps gives the same (stationary) result. -/
theorem C8_expansion_terminates :
    ∀ (price_list : List PyVal) (minima_indices_set : Finset ℕ)
      (overall_average : ℚ) (target_sublist_length : Option ℤ)
      (st : ExpState) (fuel : ℕ), price_list.length ≤ fuel →
      expandLoop price_list minima_indices_set overall_average
          target_sublist_length fuel st =
        expandLoop price_list minima_indices_set overall_average
          target_sublist_length price_list.length st := by
  intro l minima avg target st fuel hfuel
  exact expandLoop_fuel_indep fuel l.length st
    (le_trans (freeCount_le_length l st) hfuel)
    (freeCount_le_length l st)

/-- Closed instance of C8: with fuel 10 on a 4-entry list the loop agrees
with its 4-fuel run. -/
theorem C8_witness :
    expandLoop [some 7, some 0, some 1, some 0] {1, 3} 2 none 10
        ⟨[some 7], [0], {0}, 1, -1⟩ =
      expandLoop [some 7, some 0, some 1, some 0] {1, 3} 2 none 4
        ⟨[some 7], [0], {0}, 1, -1⟩ :=
  C8_expansion_terminates [some 7, some 0, some 1, some 0] {1, 3} 2 none
    ⟨[some 7], [0], {0}, 1, -1⟩ 10 (by decide)

/-! ## Claim C6: degenerate inputs yield empty results -/

lemma sort_select_fst_length (data : List (List PyVal × List ℕ)) (n : ℤ) :
    ((_sort_and_select_sublists data n).1).length = min n.toNat data.length := by
  unfold _sort_and_select_sublists
  simp

/-- C6: `split_price_list_at_maxima` returns `([], [])` — it is a total
function, raising nothing — whenever the input list is empty, or
`number_of_sublists ≤ 0`, or the list has no numeric entries, or no local
maxima exist; for all other inputs it returns at least one sublist. -/
theorem C6_degenerate_inputs :
    ∀ (price_list : List PyVal) (number_of_sublists : ℤ)
      (target_sublist_length : Option ℤ),
      ((price_list = [] ∨ number_of_sublists ≤ 0 ∨
          price_list.filterMap id = [] ∨ find_local_maxima price_list = []) →
        split_price_list_at_maxima price_list number_of_sublists
          target_sublist_length = ([], [])) ∧
      (price_list ≠ [] → 0 < number_of_sublists →
        price_list.filterMap id ≠ [] → find_local_maxima price_list ≠ [] →
        (split_price_list_at_maxima price_list number_of_sublists
          target_sublist_length).1 ≠ []) := by
  intro l n t
  constructor
  · intro hdeg
    unfold split_price_list_at_maxima
    rcases hdeg with h | h | h | h
    · rw [if_pos (Or.inl h)]
    · rw [if_pos (Or.inr h)]
    · by_cases h2 : l = [] ∨ n ≤ 0
      · rw [if_pos h2]
      · rw [if_neg h2, if_pos h]
    · by_cases h2 : l = [] ∨ n ≤ 0
      · rw [if_pos h2]
      · by_cases h3 : l.filterMap id = []
        · rw [if_neg h2, if_pos h3]
        · rw [if_neg h2, if_neg h3, if_pos h]
  · intro hne hn hnum hmax
    unfold split_price_list_at_maxima
    rw [if_neg (by push_neg; exact ⟨hne, by omega⟩), if_neg hnum, if_neg hmax]
    intro hcontra
    have hlen := congrArg List.length hcontra
    rw [sort_select_fst_length] at hlen
    simp only [List.length_nil] at hlen
    have hbuild : (_build_sublists_around_maxima l (find_local_maxima l)
        (find_local_minima l).toFinset (overall_average l) t).length ≠ 0 := by
      unfold _build_sublists_around_maxima
      cases hm : find_local_maxima l with
      | nil => exact absurd hm hmax
      | cons m rest =>
        rw [buildGo]
        rw [if_neg (Finset.not_mem_empty m)]
        simp
    have hn' : n.toNat ≠ 0 := by omega
    omega
  
/-- Closed instance of C6: a zero sublist budget yields `([], [])`, and the
4-entry list with two maxima yields a non-empty first component. -/
theorem C6_witness :
    split_price_list_at_maxima [some 1] 0 none = ([], []) ∧
      (split_price_list_at_maxima [some 7, some 0, some 1, some 0] 2
        none).1 ≠ [] :=
  ⟨(C6_degenerate_inputs [some 1] 0 none).1 (Or.inr (Or.inl (by decide))),
    (C6_degenerate_inputs [some 7, some 0, some 1, some 0] 2 none).2
      (by decide) (by decide) (by decide) (by decide)⟩

/-! ## Structure of the built sublists -/

/-- Two disjoint contiguous index blocks are totally ordered by any pair of
members. -/
lemma range'_lt_range' {a₁ n₁ a₂ n₂ s₁ s₂ : ℕ}
    (hd : ∀ i ∈ List.range' a₁ n₁, i ∉ List.range' a₂ n₂)
    (h₁ : s₁ ∈ List.range' a₁ n₁) (h₂ : s₂ ∈ List.range' a₂ n₂)
    (hs : s₁ < s₂) :
    ∀ i ∈ List.range' a₁ n₁, ∀ j ∈ List.range' a₂ n₂, i < j := by
  intro i hi j hj
  rw [List.mem_range'_1] at h₁ h₂ hi hj
  rcases Nat.lt_or_ge a₂ (a₁ + n₁) with hlt | hge
  · exfalso
    rcases Nat.le_total a₁ a₂ with hab | hba
    · exact hd a₂ (List.mem_range'_1.2 (by omega)) (List.mem_range'_1.2 (by omega))
    · exact hd a₁ (List.mem_range'_1.2 (by omega)) (List.mem_range'_1.2 (by omega))
  · omega

/-- What one expansion around a fresh in-range seed guarantees: the returned
used set is exactly the incoming one plus the claimed indices, the claimed
indices are fresh in-range ones, they form a non-empty contiguous block, and
the seed is among them. -/
lemma expand_around_maximum_spec (l : List PyVal) (minima : Finset ℕ)
    (avg : ℚ) (t : Option ℤ) (used₀ : Finset ℕ) (s : ℕ)
    (hs_len : s < l.length) (hs_used : s ∉ used₀) :
    (_expand_around_maximum l s minima avg t used₀).2 =
        used₀ ∪ ((_expand_around_maximum l s minima avg t used₀).1.2).toFinset ∧
      (∀ i ∈ (_expand_around_maximum l s minima avg t used₀).1.2, i ∉ used₀) ∧
      (∀ i ∈ (_expand_around_maximum l s minima avg t used₀).1.2,
        i < l.length) ∧
      s ∈ (_expand_around_maximum l s minima avg t used₀).1.2 ∧
      (∃ a len, len ≠ 0 ∧
        (_expand_around_maximum l s minima avg t used₀).1.2 =
          List.range' a len) := by
  have key := @expandLoop_invariant l minima avg t
    (fun st => st.used = used₀ ∪ st.inds.toFinset ∧
      (∀ i ∈ st.inds, i ∉ used₀) ∧
      (∀ i ∈ st.inds, i < l.length) ∧
      s ∈ st.inds ∧
      (∃ a len, len ≠ 0 ∧ st.inds = List.range' a len ∧
        (a : ℤ) = st.bwd + 1 ∧ ((a + len : ℕ) : ℤ) = st.fwd))
    ?_ l.length
    ⟨[nval l s], [s], insert s used₀, (s : ℤ) + 1, (s : ℤ) - 1⟩
    ?_
  · obtain ⟨h1, h2, h3, h4, a, len, hlen, hrange, -, -⟩ := key
    exact ⟨h1, h2, h3, h4, a, len, hlen, hrange⟩
  · rintro st st' ⟨h1, h2, h3, h4, a, len, hlen, hrange, hbwd, hfwd⟩ hs
    obtain ⟨i, v, hiused, hilen, -, -, hcase⟩ := expandStep_some hs
    have hsub : used₀ ⊆ st.used := h1 ▸ Finset.subset_union_left
    rcases hcase with ⟨rfl, hifw⟩ | ⟨rfl, hibw⟩
    · refine ⟨?_, ?_, ?_, ?_, a, len + 1, by omega, ?_, by simpa using hbwd, ?_⟩
      · simp only [List.toFinset_append, List.toFinset_cons,
          List.toFinset_nil, insert_emptyc_eq, h1]
        ext x
        simp [Finset.mem_insert, Finset.mem_union]
        tauto
      · intro j hj
        rcases List.mem_append.1 hj with hj | hj
        · exact h2 j hj
        · have : j = i := by simpa using hj
          exact this ▸ fun hc => hiused (hsub hc)
      · intro j hj
        rcases List.mem_append.1 hj with hj | hj
        · exact h3 j hj
        · have : j = i := by simpa using hj
          exact this ▸ hilen
      · exact List.mem_append.2 (Or.inl h4)
      · have hia : i = a + len := by
          have : ((i : ℕ) : ℤ) = ((a + len : ℕ) : ℤ) := by rw [hifw, hfwd]
          exact_mod_cast this
        rw [hrange, hia, List.range'_concat]
        simp
      · push_cast
        push_cast at hfwd
        omega
    · have hapos : 1 ≤ a := by omega
      have ha : a = i + 1 := by omega
      refine ⟨?_, ?_, ?_, ?_, i, len + 1, by omega, ?_, ?_, ?_⟩
      · simp only [List.toFinset_cons, h1]
        ext x
        simp [Finset.mem_insert, Finset.mem_union]
        try tauto
      · intro j hj
        rcases List.mem_cons.1 hj with rfl | hj
        · exact fun hc => hiused (hsub hc)
        · exact h2 j hj
      · intro j hj
        rcases List.mem_cons.1 hj with rfl | hj
        · exact hilen
        · exact h3 j hj
      · exact List.mem_cons.2 (Or.inr h4)
      · show i :: st.inds = List.range' i (len + 1)
        rw [hrange, ha, List.range'_succ i len 1]
      · show (i : ℤ) = st.bwd - 1 + 1
        omega
      · show ((i + (len + 1) : ℕ) : ℤ) = st.fwd
        push_cast
        push_cast at hfwd
        omega
  · refine ⟨?_, ?_, ?_, List.mem_singleton.2 rfl, s, 1, one_ne_zero, ?_, ?_, ?_⟩
    · simp [Finset.insert_eq, Finset.union_comm]
    · intro i hi
      rw [List.mem_singleton.1 hi]
      exact hs_used
    · intro i hi
      rw [List.mem_singleton.1 hi]
      exact hs_len
    · simp
    · dsimp only
      omega
    · dsimp only
      omega

/-- Invariants of the build loop: every produced entry has in-range indices
that were free when the loop started, forms a non-empty contiguous block
containing one of the visited maxima, and entries produced earlier lie
entirely below entries produced later (maxima are visited in ascending
order and each expansion stops at claimed indices). -/
lemma buildGo_spec (l : List PyVal) (minima : Finset ℕ) (avg : ℚ)
    (t : Option ℤ) :
    ∀ (ms : List ℕ) (used₀ : Finset ℕ),
      (∀ m ∈ ms, m < l.length) →
      List.Pairwise (· < ·) ms →
      (∀ p ∈ buildGo l minima avg t ms used₀,
        (∀ i ∈ p.2, i < l.length) ∧ (∀ i ∈ p.2, i ∉ used₀) ∧
        (∃ a len, len ≠ 0 ∧ p.2 = List.range' a len) ∧
        (∃ m ∈ ms, m ∈ p.2)) ∧
      List.Pairwise (fun p q => ∀ i ∈ p.2, ∀ j ∈ q.2, i < j)
        (buildGo l minima avg t ms used₀) := by
  intro ms
  induction ms with
  | nil =>
    intro used₀ _ _
    constructor
    · intro p hp
      simp [buildGo] at hp
    · simp [buildGo]
  | cons m rest ih =>
    intro used₀ hbound hsorted
    rw [buildGo]
    by_cases hm : m ∈ used₀
    · rw [if_pos hm]
      obtain ⟨ih1, ih2⟩ := ih used₀
        (fun x hx => hbound x (List.mem_cons_of_mem m hx)) hsorted.of_cons
      refine ⟨fun p hp => ?_, ih2⟩
      obtain ⟨b1, b2, b3, b4⟩ := ih1 p hp
      exact ⟨b1, b2, b3, b4.imp fun x ⟨h1, h2⟩ =>
        ⟨List.mem_cons_of_mem m h1, h2⟩⟩
    · rw [if_neg hm]
      obtain ⟨hu, hfresh, hbnd, hseed, aI, lenI, hlenI, hI⟩ :=
        expand_around_maximum_spec l minima avg t used₀ m
          (hbound m (List.mem_cons_self m rest)) hm
      have hsub : used₀ ⊆ (_expand_around_maximum l m minima avg t used₀).2 :=
        hu ▸ Finset.subset_union_left
      obtain ⟨ih1, ih2⟩ := ih (_expand_around_maximum l m minima avg t used₀).2
        (fun x hx => hbound x (List.mem_cons_of_mem m hx)) hsorted.of_cons
      constructor
      · intro p hp
        rcases List.mem_cons.1 hp with rfl | hp
        · exact ⟨hbnd, hfresh, ⟨aI, lenI, hlenI, hI⟩,
            ⟨m, List.mem_cons_self m rest, hseed⟩⟩
        · obtain ⟨b1, b2, b3, b4⟩ := ih1 p hp
          exact ⟨b1, fun i hi hc => b2 i hi (hsub hc), b3,
            b4.imp fun x ⟨h1, h2⟩ => ⟨List.mem_cons_of_mem m h1, h2⟩⟩
      · refine List.Pairwise.cons ?_ ih2
        intro q hq i hi j hj
        obtain ⟨qb1, qb2, qb3, qb4⟩ := ih1 q hq
        obtain ⟨aJ, lenJ, hlenJ, hJ⟩ := qb3
        obtain ⟨m', hm'rest, hm'q⟩ := qb4
        have hmm' : m < m' := (List.pairwise_cons.1 hsorted).1 m' hm'rest
        have hdisj : ∀ x ∈ (_expand_around_maximum l m minima avg t used₀).1.2,
            x ∉ q.2 := fun x hx hxq =>
          qb2 x hxq (hu ▸ Finset.mem_union_right _ (List.mem_toFinset.2 hx))
        rw [hI] at hdisj hseed hi
        rw [hJ] at hm'q hj hdisj
        exact range'_lt_range' hdisj hseed hm'q hmm' i hi j hj

/-- Every selected entry of `_sort_and_select_sublists` is one of the built
entries. -/
lemma sort_select_mem_fst {data : List (List PyVal × List ℕ)} {n : ℤ}
    {sub : List PyVal} (h : sub ∈ (_sort_and_select_sublists data n).1) :
    ∃ L, (sub, L) ∈ data := by
  unfold _sort_and_select_sublists at h
  obtain ⟨x, hx, hx2⟩ := List.mem_map.1 h
  have hx' : x ∈ (data.map fun p => (sumNumeric p.1, p.1, p.2)).mergeSort
      fun a b => decide (b.1 ≤ a.1) := (List.take_sublist _ _).subset hx
  rw [List.mem_mergeSort] at hx'
  obtain ⟨p, hp, hfp⟩ := List.mem_map.1 hx'
  refine ⟨p.2, ?_⟩
  have : sub = p.1 := by rw [← hx2, ← hfp]
  rw [this]
  exact hp

/-- Same for the parallel index lists. -/
lemma sort_select_mem_snd {data : List (List PyVal × List ℕ)} {n : ℤ}
    {L : List ℕ} (h : L ∈ (_sort_and_select_sublists data n).2) :
    ∃ sub, (sub, L) ∈ data := by
  unfold _sort_and_select_sublists at h
  obtain ⟨x, hx, hx2⟩ := List.mem_map.1 h
  have hx' : x ∈ (data.map fun p => (sumNumeric p.1, p.1, p.2)).mergeSort
      fun a b => decide (b.1 ≤ a.1) := (List.take_sublist _ _).subset hx
  rw [List.mem_mergeSort] at hx'
  obtain ⟨p, hp, hfp⟩ := List.mem_map.1 hx'
  refine ⟨p.1, ?_⟩
  have : L = p.2 := by rw [← hx2, ← hfp]
  rw [this]
  exact hp

/-- Pairwise index-disjointness survives sorting, truncation and
projection. -/
lemma sort_select_pairwise_disjoint {data : List (List PyVal × List ℕ)}
    {n : ℤ} (hd : List.Pairwise (fun p q => ∀ i ∈ p.2, i ∉ q.2) data) :
    List.Pairwise (fun A B => ∀ i ∈ A, i ∉ B)
      (_sort_and_select_sublists data n).2 := by
  unfold _sort_and_select_sublists
  rw [List.pairwise_map]
  apply List.Pairwise.sublist (List.take_sublist _ _)
  have hsym : ∀ {x y : ℚ × List PyVal × List ℕ},
      (∀ i ∈ x.2.2, i ∉ y.2.2) → ∀ i ∈ y.2.2, i ∉ x.2.2 :=
    fun h j hj hja => h j hja hj
  rw [(List.mergeSort_perm _ _).pairwise_iff hsym]
  rw [List.pairwise_map]
  exact hd

/-! ## Claim C7: returned index lists are in range and pairwise disjoint -/

/-- Helper: the maxima list passed to the builder is strictly ascending with
in-range entries, so `buildGo_spec` applies to the full pipeline. -/
lemma split_build_spec (l : List PyVal) (t : Option ℤ) :
    (∀ p ∈ _build_sublists_around_maxima l (find_local_maxima l)
        (find_local_minima l).toFinset (overall_average l) t,
      (∀ i ∈ p.2, i < l.length) ∧
      (∃ a len, len ≠ 0 ∧ p.2 = List.range' a len) ∧
      (∃ m ∈ find_local_maxima l, m ∈ p.2)) ∧
    List.Pairwise (fun p q => ∀ i ∈ p.2, ∀ j ∈ q.2, i < j)
      (_build_sublists_around_maxima l (find_local_maxima l)
        (find_local_minima l).toFinset (overall_average l) t) := by
  have h := buildGo_spec l (find_local_minima l).toFinset (overall_average l) t
    (find_local_maxima l) ∅ (fun m hm => mem_find_local_maxima_lt_length l m hm)
    (find_local_maxima_sorted l)
  exact ⟨fun p hp => ⟨(h.1 p hp).1, (h.1 p hp).2.2.1, (h.1 p hp).2.2.2⟩, h.2⟩

/-- C7: for every input, the index lists returned by
`split_price_list_at_maxima` are pairwise disjoint (no index appears in two
different sublists of one call) and every index lies within
`[0, price_list.length - 1]`. -/
theorem C7_index_lists_bounded_disjoint :
    ∀ (price_list : List PyVal) (number_of_sublists : ℤ)
      (target_sublist_length : Option ℤ),
      (∀ L ∈ (split_price_list_at_maxima price_list number_of_sublists
          target_sublist_length).2, ∀ i ∈ L, i < price_list.length) ∧
      List.Pairwise (fun A B => ∀ i ∈ A, i ∉ B)
        (split_price_list_at_maxima price_list number_of_sublists
          target_sublist_length).2 := by
  intro l n t
  by_cases h1 : l = [] ∨ n ≤ 0
  · unfold split_price_list_at_maxima
    rw [if_pos h1]
    exact ⟨by simp, by simp⟩
  · by_cases h2 : l.filterMap id = []
    · unfold split_price_list_at_maxima
      rw [if_neg h1, if_pos h2]
      exact ⟨by simp, by simp⟩
    · by_cases h3 : find_local_maxima l = []
      · unfold split_price_list_at_maxima
        rw [if_neg h1, if_neg h2, if_pos h3]
        exact ⟨by simp, by simp⟩
      · have hsplit : split_price_list_at_maxima l n t =
            _sort_and_select_sublists
              (_build_sublists_around_maxima l (find_local_maxima l)
                (find_local_minima l).toFinset (overall_average l) t) n := by
          unfold split_price_list_at_maxima
          rw [if_neg h1, if_neg h2, if_neg h3]
        rw [hsplit]
        obtain ⟨hfacts, hpw⟩ := split_build_spec l t
        constructor
        · intro L hL i hi
          obtain ⟨sub, hmem⟩ := sort_select_mem_snd hL
          exact ((hfacts (sub, L) hmem).1) i hi
        · exact sort_select_pairwise_disjoint
            (hpw.imp fun h => fun i hi hj => lt_irrefl i (h i hi i hj))

/-! ## Concrete pipeline evaluations (shared by witnesses and
counterexamples) -/

/-- Full pipeline run on `[7, 0, 1, 0]` (overall average 2): both maxima are
kept, including the singleton `[1]` seeded at the below-average maximum. -/
lemma eval_split_7010 :
    split_price_list_at_maxima [some 7, some 0, some 1, some 0] 2 none
      = ([[some 7], [some 1]], [[0], [2]]) := by
  have havg : overall_average [some 7, some 0, some 1, some 0] = 2 := by
    simp [overall_average]
    norm_num
  unfold split_price_list_at_maxima
  rw [if_neg (by decide), if_neg (by decide), if_neg (by decide), havg]
  have hbuild : _build_sublists_around_maxima [some 7, some 0, some 1, some 0]
      (find_local_maxima [some 7, some 0, some 1, some 0])
      (find_local_minima [some 7, some 0, some 1, some 0]).toFinset 2 none
      = [([some 7], [0]), ([some 1], [2])] := by decide
  simp only [hbuild]
  have h1 : sumNumeric [some 7] = 7 := by simp [sumNumeric]
  have h2 : sumNumeric [some 1] = 1 := by simp [sumNumeric]
  unfold _sort_and_select_sublists
  simp only [List.map, h1, h2]
  simp [List.mergeSort, List.merge]

/-- Full pipeline run on `[1, 4, 2, 1]` (overall average 2): the single
maximum 4 expands forward over the above-average 2. -/
lemma eval_split_1421 :
    split_price_list_at_maxima [some 1, some 4, some 2, some 1] 1 none
      = ([[some 4, some 2]], [[1, 2]]) := by
  have havg : overall_average [some 1, some 4, some 2, some 1] = 2 := by
    simp [overall_average]
    norm_num
  unfold split_price_list_at_maxima
  rw [if_neg (by decide), if_neg (by decide), if_neg (by decide), havg]
  have hbuild : _build_sublists_around_maxima [some 1, some 4, some 2, some 1]
      (find_local_maxima [some 1, some 4, some 2, some 1])
      (find_local_minima [some 1, some 4, some 2, some 1]).toFinset 2 none
      = [([some 4, some 2], [1, 2])] := by decide
  simp only [hbuild]
  have h1 : sumNumeric [some 4, some 2] = 6 := by
    simp [sumNumeric]
    norm_num
  unfold _sort_and_select_sublists
  simp only [List.map, h1]
  simp [List.mergeSort]

/-- Closed instance of C7: index 2 of the second returned index list of the
`[7, 0, 1, 0]` run is within bounds. -/
theorem C7_witness : (2 : ℕ) < ([some 7, some 0, some 1, some 0] : List PyVal).length :=
  (C7_index_lists_bounded_disjoint [some 7, some 0, some 1, some 0] 2 none).1
    [2] (by rw [eval_split_7010]; decide) 2 (by decide)

/-! ## Claim C1: seeds below the overall average are kept (corrected) -/

/-- Every element the expansion loop adds is at least the overall average, so
any expanded sublist of length ≥ 2 contains an element `≥ avg`. -/
lemma expand_sub_above_avg (l : List PyVal) (minima : Finset ℕ) (avg : ℚ)
    (t : Option ℤ) (used₀ : Finset ℕ) (s : ℕ)
    (h : 2 ≤ ((_expand_around_maximum l s minima avg t used₀).1.1).length) :
    ∃ q : ℚ, some q ∈ (_expand_around_maximum l s minima avg t used₀).1.1 ∧
      avg ≤ q := by
  have key := @expandLoop_invariant l minima avg t
    (fun st => 2 ≤ st.sub.length → ∃ q : ℚ, some q ∈ st.sub ∧ avg ≤ q)
    ?_ l.length
    ⟨[nval l s], [s], insert s used₀, (s : ℤ) + 1, (s : ℤ) - 1⟩
    ?_
  · exact key h
  · rintro st st' - hs -
    obtain ⟨i, v, -, -, -, havg, hcase⟩ := expandStep_some hs
    rcases hcase with ⟨rfl, -⟩ | ⟨rfl, -⟩
    · exact ⟨v, List.mem_append.2 (Or.inr (List.mem_singleton.2 rfl)), havg⟩
    · exact ⟨v, List.mem_cons_self _ _, havg⟩
  · intro hlen
    simp at hlen

lemma buildGo_sub_above_avg (l : List PyVal) (minima : Finset ℕ) (avg : ℚ)
    (t : Option ℤ) :
    ∀ (ms : List ℕ) (used₀ : Finset ℕ) (p : List PyVal × List ℕ),
      p ∈ buildGo l minima avg t ms used₀ → 2 ≤ p.1.length →
      ∃ q : ℚ, some q ∈ p.1 ∧ avg ≤ q := by
  intro ms
  induction ms with
  | nil => intro used₀ p hp; simp [buildGo] at hp
  | cons m rest ih =>
    intro used₀ p hp hlen
    rw [buildGo] at hp
    by_cases hm : m ∈ used₀
    · rw [if_pos hm] at hp
      exact ih used₀ p hp hlen
    · rw [if_neg hm] at hp
      rcases List.mem_cons.1 hp with rfl | hp
      · exact expand_sub_above_avg l minima avg t used₀ m hlen
      · exact ih _ p hp hlen

/-- C1 as stated is false: on `[7, 0, 1, 0]` with two sublists requested, the
singleton sublist `[1]` seeded at the local maximum at index 2 is kept even
though its maximum (and only) element 1 is strictly below the overall
average 2. -/
theorem C1_counterexample :
    [some 1] ∈ (split_price_list_at_maxima [some 7, some 0, some 1, some 0]
        2 none).1 ∧
      overall_average [some 7, some 0, some 1, some 0] = 2 ∧
      List.filterMap id ([some 1] : List PyVal) = [(1 : ℚ)] ∧
      (1 : ℚ) < 2 :=
  ⟨by rw [eval_split_7010]; decide,
    by simp [overall_average]; norm_num, by decide, by decide⟩

/-- C1 amended: the source keeps every built sublist — there is no defensive
filter — so a sublist whose maximum is below the overall average can be
returned, but only as a bare seed: every returned sublist with at least two
elements contains an expansion element that is `≥` the overall average, and
hence its maximum element is `≥` the overall average. -/
theorem C1_amended_sublists_above_average :
    ∀ (price_list : List PyVal) (number_of_sublists : ℤ)
      (target_sublist_length : Option ℤ) (sub : List PyVal),
      sub ∈ (split_price_list_at_maxima price_list number_of_sublists
        target_sublist_length).1 →
      2 ≤ sub.length →
      ∃ q : ℚ, some q ∈ sub ∧ overall_average price_list ≤ q := by
  intro l n t sub hmem hlen
  by_cases h1 : l = [] ∨ n ≤ 0
  · unfold split_price_list_at_maxima at hmem
    rw [if_pos h1] at hmem
    simp at hmem
  · by_cases h2 : l.filterMap id = []
    · unfold split_price_list_at_maxima at hmem
      rw [if_neg h1, if_pos h2] at hmem
      simp at hmem
    · by_cases h3 : find_local_maxima l = []
      · unfold split_price_list_at_maxima at hmem
        rw [if_neg h1, if_neg h2, if_pos h3] at hmem
        simp at hmem
      · have hsplit : split_price_list_at_maxima l n t =
            _sort_and_select_sublists
              (_build_sublists_around_maxima l (find_local_maxima l)
                (find_local_minima l).toFinset (overall_average l) t) n := by
          unfold split_price_list_at_maxima
          rw [if_neg h1, if_neg h2, if_neg h3]
        rw [hsplit] at hmem
        obtain ⟨L, hL⟩ := sort_select_mem_fst hmem
        exact buildGo_sub_above_avg l (find_local_minima l).toFinset
          (overall_average l) t (find_local_maxima l) ∅ (sub, L) hL hlen

/-- Closed instance of the amended C1: the two-element sublist kept on
`[1, 4, 2, 1]` contains a value at least the overall average 2. -/
theorem C1_witness :
    ∃ q : ℚ, some q ∈ ([some 4, some 2] : List PyVal) ∧
      overall_average [some 1, some 4, some 2, some 1] ≤ q :=
  C1_amended_sublists_above_average [some 1, some 4, some 2, some 1] 1 none
    [some 4, some 2] (by rw [eval_split_1421]; decide) (by decide)

/-! ## Claim C10: ranking is stable for equal totals -/

/-- In a duplicate-free list, a pair cannot occur as a sublist in both
orders unless its two members coincide. -/
lemma sublist_pair_antisymm {α : Type*} :
    ∀ {L : List α}, L.Nodup → ∀ {a b : α},
      [a, b].Sublist L → [b, a].Sublist L → a = b := by
  intro L
  induction L with
  | nil =>
    intro _ a b h1 _
    exact absurd (List.sublist_nil.1 h1) (by simp)
  | cons x t ih =>
    intro hnd a b h1 h2
    cases h1 with
    | cons _ h1' =>
      cases h2 with
      | cons _ h2' => exact ih hnd.of_cons h1' h2'
      | cons₂ _ h2' =>
        exfalso
        exact (List.nodup_cons.1 hnd).1 (h1'.subset (by simp))
    | cons₂ _ h1' =>
      cases h2 with
      | cons _ h2' =>
        exfalso
        exact (List.nodup_cons.1 hnd).1 (h2'.subset (by simp))
      | cons₂ _ h2' => rfl

/-- Any two members of a list occur, in one order or the other, as a
two-element sublist. -/
lemma mem_mem_sublist_order {α : Type*} :
    ∀ {L : List α} {a b : α}, a ∈ L → b ∈ L →
      a = b ∨ [a, b].Sublist L ∨ [b, a].Sublist L := by
  intro L
  induction L with
  | nil => intro a b h _; simp at h
  | cons x t ih =>
    intro a b ha hb
    rcases List.mem_cons.1 ha with ha' | ha'
    · rcases List.mem_cons.1 hb with hb' | hb'
      · exact Or.inl (ha'.trans hb'.symm)
      · subst ha'
        exact Or.inr (Or.inl (List.Sublist.cons₂ a (List.singleton_sublist.2 hb')))
    · rcases List.mem_cons.1 hb with hb' | hb'
      · subst hb'
        exact Or.inr (Or.inr (List.Sublist.cons₂ b (List.singleton_sublist.2 ha')))
      · rcases ih ha' hb' with h | h | h
        · exact Or.inl h
        · exact Or.inr (Or.inl (List.Sublist.cons x h))
        · exact Or.inr (Or.inr (List.Sublist.cons x h))

/-- A duplicate-free list has no `[a, a]` sublist. -/
lemma not_pair_self_sublist {α : Type*} [DecidableEq α] {L : List α}
    (h : L.Nodup) (a : α) : ¬ [a, a].Sublist L := by
  intro hs
  have h1 := hs.count_le a
  simp at h1
  rw [List.nodup_iff_count_le_one] at h
  have := h a
  omega

/-- C10: ranking is stable with respect to build order — when two kept
sublists have equal sums of numeric values, they appear in the returned
(truncated) output in build order, which is ascending order of their seed
maxima; equivalently, every index of the earlier sublist is strictly below
every index of the later one, since each built block is contiguous and
contains its seed. -/
theorem C10_equal_totals_keep_build_order :
    ∀ (price_list : List PyVal) (number_of_sublists : ℤ)
      (target_sublist_length : Option ℤ) (A B : List PyVal)
      (LA LB : List ℕ),
      [(A, LA), (B, LB)].Sublist
        ((split_price_list_at_maxima price_list number_of_sublists
            target_sublist_length).1.zip
          (split_price_list_at_maxima price_list number_of_sublists
            target_sublist_length).2) →
      sumNumeric A = sumNumeric B →
      ∀ i ∈ LA, ∀ j ∈ LB, i < j := by
  intro l n t A B LA LB hsub htot
  by_cases h1 : l = [] ∨ n ≤ 0
  · unfold split_price_list_at_maxima at hsub
    rw [if_pos h1] at hsub
    simp at hsub
  · by_cases h2 : l.filterMap id = []
    · unfold split_price_list_at_maxima at hsub
      rw [if_neg h1, if_pos h2] at hsub
      simp at hsub
    · by_cases h3 : find_local_maxima l = []
      · unfold split_price_list_at_maxima at hsub
        rw [if_neg h1, if_neg h2, if_pos h3] at hsub
        simp at hsub
      · have hsplit : split_price_list_at_maxima l n t =
            _sort_and_select_sublists
              (_build_sublists_around_maxima l (find_local_maxima l)
                (find_local_minima l).toFinset (overall_average l) t) n := by
          unfold split_price_list_at_maxima
          rw [if_neg h1, if_neg h2, if_neg h3]
        rw [hsplit] at hsub
        have hzip : (_sort_and_select_sublists
              (_build_sublists_around_maxima l (find_local_maxima l)
                (find_local_minima l).toFinset (overall_average l) t) n).1.zip
            (_sort_and_select_sublists
              (_build_sublists_around_maxima l (find_local_maxima l)
                (find_local_minima l).toFinset (overall_average l) t) n).2 =
            ((((_build_sublists_around_maxima l (find_local_maxima l)
                (find_local_minima l).toFinset (overall_average l) t).map
                  fun p => (sumNumeric p.1, p.1, p.2)).mergeSort
                fun a b => decide (b.1 ≤ a.1)).take n.toNat).map
              fun x => (x.2.1, x.2.2) := by
          unfold _sort_and_select_sublists
          rw [List.zip_map']
        rw [hzip, List.sublist_map_iff] at hsub
        obtain ⟨l', hl'sub, hl'eq⟩ := hsub
        have hlen2 : l'.length = 2 := by
          have := congrArg List.length hl'eq
          simpa using this.symm
        obtain ⟨X, Y, rfl⟩ := List.length_eq_two.1 hlen2
        simp only [List.map_cons, List.map_nil, List.cons.injEq, and_true,
          Prod.mk.injEq] at hl'eq
        obtain ⟨⟨hXA, hXLA⟩, hYB, hYLB⟩ := hl'eq
        have hXY_sorted : [X, Y].Sublist
            ((((_build_sublists_around_maxima l (find_local_maxima l)
                (find_local_minima l).toFinset (overall_average l) t).map
                  fun p => (sumNumeric p.1, p.1, p.2)).mergeSort
                fun a b => decide (b.1 ≤ a.1))) :=
          hl'sub.trans (List.take_sublist _ _)
        have hX_comb : X ∈ (_build_sublists_around_maxima l
            (find_local_maxima l) (find_local_minima l).toFinset
            (overall_average l) t).map fun p => (sumNumeric p.1, p.1, p.2) :=
          List.mem_mergeSort.1 (hXY_sorted.subset (by simp))
        have hY_comb : Y ∈ (_build_sublists_around_maxima l
            (find_local_maxima l) (find_local_minima l).toFinset
            (overall_average l) t).map fun p => (sumNumeric p.1, p.1, p.2) :=
          List.mem_mergeSort.1 (hXY_sorted.subset (by simp))
        have hXfst : X.1 = sumNumeric X.2.1 := by
          obtain ⟨p, hp, hfp⟩ := List.mem_map.1 hX_comb
          rw [← hfp]
        have hYfst : Y.1 = sumNumeric Y.2.1 := by
          obtain ⟨p, hp, hfp⟩ := List.mem_map.1 hY_comb
          rw [← hfp]
        have htot' : X.1 = Y.1 := by
          rw [hXfst, hYfst, ← hXA, ← hYB]
          exact htot
        have hfacts := (split_build_spec l t).1
        have hpw := (split_build_spec l t).2
        have hcomb_pw : List.Pairwise
            (fun x y : ℚ × List PyVal × List ℕ =>
              ∀ i ∈ x.2.2, ∀ j ∈ y.2.2, i < j)
            ((_build_sublists_around_maxima l (find_local_maxima l)
              (find_local_minima l).toFinset (overall_average l) t).map
                fun p => (sumNumeric p.1, p.1, p.2)) :=
          List.pairwise_map.2 hpw
        have hnodup_comb : ((_build_sublists_around_maxima l
            (find_local_maxima l) (find_local_minima l).toFinset
            (overall_average l) t).map
              fun p => (sumNumeric p.1, p.1, p.2)).Nodup := by
          show List.Pairwise _ _
          rw [List.pairwise_map]
          apply List.Pairwise.imp_of_mem ?_ hpw
          intro p q hpmem hqmem hlt heq
          obtain ⟨m, hmmax, hmP⟩ := (hfacts p hpmem).2.2
          have hp2 : p.2 = q.2 := congrArg (fun z => z.2.2) heq
          exact absurd (hlt m hmP m (hp2 ▸ hmP)) (lt_irrefl m)
        have hnodup_sorted := ((List.mergeSort_perm _
            fun a b => decide (b.1 ≤ a.1)).nodup_iff).mpr hnodup_comb
        have hne : X ≠ Y := by
          intro heq
          subst heq
          exact not_pair_self_sublist hnodup_sorted X hXY_sorted
        have htrans : ∀ a b c : ℚ × List PyVal × List ℕ,
            (fun a b => decide (b.1 ≤ a.1)) a b = true →
            (fun a b => decide (b.1 ≤ a.1)) b c = true →
            (fun a b => decide (b.1 ≤ a.1)) a c = true := by
          intro a b c hab hbc
          simp only [decide_eq_true_eq] at *
          exact le_trans hbc hab
        have htotal : ∀ a b : ℚ × List PyVal × List ℕ,
            ((fun a b => decide (b.1 ≤ a.1)) a b ||
              (fun a b => decide (b.1 ≤ a.1)) b a) = true := by
          intro a b
          simp only [Bool.or_eq_true, decide_eq_true_eq]
          exact le_total b.1 a.1
        rcases mem_mem_sublist_order hX_comb hY_comb with heq | hord | hord
        · exact absurd heq hne
        · have hP := List.pairwise_pair.1 (List.Pairwise.sublist hord hcomb_pw)
          intro i hi j hj
          exact hP i (hXLA ▸ hi) j (hYLB ▸ hj)
        · exfalso
          have hcmp : (fun a b : ℚ × List PyVal × List ℕ =>
              decide (b.1 ≤ a.1)) Y X = true := by
            simp only [decide_eq_true_eq]
            exact le_of_eq htot'
          have h2 := List.pair_sublist_mergeSort htrans htotal hcmp hord
          exact hne (sublist_pair_antisymm hnodup_sorted hXY_sorted h2)

/-- Full pipeline run on `[4, 0, 4, 0]` (overall average 2): two equal-total
singleton sublists, kept in ascending-maxima order by the stable sort. -/
lemma eval_split_4040 :
    split_price_list_at_maxima [some 4, some 0, some 4, some 0] 2 none
      = ([[some 4], [some 4]], [[0], [2]]) := by
  have havg : overall_average [some 4, some 0, some 4, some 0] = 2 := by
    simp [overall_average]
    norm_num
  unfold split_price_list_at_maxima
  rw [if_neg (by decide), if_neg (by decide), if_neg (by decide), havg]
  have hbuild : _build_sublists_around_maxima [some 4, some 0, some 4, some 0]
      (find_local_maxima [some 4, some 0, some 4, some 0])
      (find_local_minima [some 4, some 0, some 4, some 0]).toFinset 2 none
      = [([some 4], [0]), ([some 4], [2])] := by decide
  simp only [hbuild]
  have h1 : sumNumeric [some 4] = 4 := by simp [sumNumeric]
  unfold _sort_and_select_sublists
  simp only [List.map, h1]
  simp [List.mergeSort, List.merge]

/-- Closed instance of C10: the two equal-total sublists of the
`[4, 0, 4, 0]` run keep ascending index order. -/
theorem C10_witness : (0 : ℕ) < 2 :=
  C10_equal_totals_keep_build_order [some 4, some 0, some 4, some 0] 2 none
    [some 4] [some 4] [0] [2]
    (by rw [eval_split_4040]; exact List.Sublist.refl _) rfl
    0 (by decide) 2 (by decide)

/-! ## Codec helper lemmas -/

lemma digitChar_isDigit {d : ℕ} (h : d < 10) :
    (Nat.digitChar d).isDigit = true := by
  interval_cases d <;> decide

lemma digitChar_val {d : ℕ} (h : d < 10) :
    (Nat.digitChar d).toNat - 48 = d := by
  interval_cases d <;> decide

lemma natChars_all_digit (n : ℕ) : ∀ c ∈ natChars n, c.isDigit = true := by
  intro c hc
  unfold natChars at hc
  rw [List.mem_reverse] at hc
  obtain ⟨d, hd, rfl⟩ := List.mem_map.1 hc
  exact digitChar_isDigit (Nat.digits_lt_base (by norm_num) hd)

/-- Folding the decimal string of a digit list back into a number. -/
lemma revFold_digits :
    ∀ (ds : List ℕ), (∀ d ∈ ds, d < 10) → ∀ (acc : ℕ),
      ((ds.map Nat.digitChar).reverse).foldl
          (fun acc c => 10 * acc + (c.toNat - 48)) acc =
        acc * 10 ^ ds.length + Nat.ofDigits 10 ds := by
  intro ds
  induction ds with
  | nil => intro _ acc; simp [Nat.ofDigits]
  | cons d ds ih =>
    intro hlt acc
    rw [List.map_cons, List.reverse_cons, List.foldl_append]
    rw [ih (fun x hx => hlt x (List.mem_cons_of_mem d hx)) acc]
    simp only [List.foldl_cons, List.foldl_nil]
    rw [digitChar_val (hlt d (List.mem_cons_self d ds))]
    rw [Nat.ofDigits_cons, List.length_cons, pow_succ]
    ring

lemma natChars_foldl (n : ℕ) :
    (natChars n).foldl (fun acc c => 10 * acc + (c.toNat - 48)) 0 = n := by
  unfold natChars
  rw [revFold_digits (Nat.digits 10 n)
    (fun d hd => Nat.digits_lt_base (by norm_num) hd) 0]
  simp [Nat.ofDigits_digits]

lemma parseNat_natChars {n : ℕ} (h : n ≠ 0) :
    parseNat (natChars n) = some n := by
  unfold parseNat
  rw [if_neg, if_pos]
  · rw [natChars_foldl]
  · rw [List.all_eq_true]
    exact natChars_all_digit n
  · unfold natChars
    simp [Nat.digits_ne_nil_iff_ne_zero.2 h]

lemma fmt2_all_digit (n : ℕ) : ∀ c ∈ fmt2 n, c.isDigit = true := by
  intro c hc
  unfold fmt2 at hc
  split at hc
  · rename_i hn
    rcases List.mem_cons.1 hc with rfl | hc
    · decide
    · have : c = Nat.digitChar n := by simpa using hc
      exact this ▸ digitChar_isDigit hn
  · exact natChars_all_digit n c hc

lemma parseNat_fmt2 (n : ℕ) : parseNat (fmt2 n) = some n := by
  unfold fmt2
  split
  · rename_i h
    unfold parseNat
    rw [if_neg (by simp), if_pos]
    · simp only [List.foldl_cons, List.foldl_nil]
      have h0 : '0'.toNat - 48 = 0 := by decide
      rw [digitChar_val h, h0]
      norm_num
    · rw [List.all_eq_true]
      intro c hc
      rcases List.mem_cons.1 hc with rfl | hc
      · decide
      · have : c = Nat.digitChar n := by simpa using hc
        exact this ▸ digitChar_isDigit h
  · rename_i h
    exact parseNat_natChars (by omega)

lemma isDigit_ne_dash {c : Char} (h : c.isDigit = true) : c ≠ '-' := by
  intro hc
  rw [hc] at h
  exact absurd h (by decide)

lemma isDigit_ne_plus {c : Char} (h : c.isDigit = true) : c ≠ '+' := by
  intro hc
  rw [hc] at h
  exact absurd h (by decide)

lemma isDigit_ne_colon {c : Char} (h : c.isDigit = true) : c ≠ ':' := by
  intro hc
  rw [hc] at h
  exact absurd h (by decide)

lemma splitOnChar_not_mem {c : Char} :
    ∀ {A : List Char}, c ∉ A → splitOnChar c A = [A] := by
  intro A
  induction A with
  | nil => intro _; rfl
  | cons x xs ih =>
    intro h
    have hx : ¬ x = c := fun hc => h (hc ▸ List.mem_cons_self x xs)
    rw [splitOnChar, ih (fun hc => h (List.mem_cons_of_mem x hc))]
    simp [hx]

lemma splitOnChar_append {c : Char} :
    ∀ {A : List Char} (B : List Char), c ∉ A →
      splitOnChar c (A ++ c :: B) = A :: splitOnChar c B := by
  intro A
  induction A with
  | nil => intro B _; simp [splitOnChar]
  | cons x xs ih =>
    intro B h
    have hx : ¬ x = c := fun hc => h (hc ▸ List.mem_cons_self x xs)
    rw [List.cons_append, splitOnChar,
      ih B (fun hc => h (List.mem_cons_of_mem x hc))]
    simp [hx]

lemma splitOnChar_pair {c : Char} {A B : List Char} (hA : c ∉ A)
    (hB : c ∉ B) : splitOnChar c (A ++ c :: B) = [A, B] := by
  rw [splitOnChar_append B hA, splitOnChar_not_mem hB]

lemma mem_fmtHM {c : Char} {t : ℤ} (h : c ∈ fmtHM t) :
    c.isDigit = true ∨ c = ':' := by
  unfold fmtHM at h
  simp only [List.append_assoc, List.singleton_append] at h
  rcases List.mem_append.1 h with h | h
  · exact Or.inl (fmt2_all_digit _ c h)
  · rcases List.mem_cons.1 h with rfl | h
    · exact Or.inr rfl
    · exact Or.inl (fmt2_all_digit _ c h)

lemma fmtHM_eq (t : ℤ) :
    fmtHM t = fmt2 ((t % 1440).toNat / 60) ++ ':'
      :: fmt2 ((t % 1440).toNat % 60) := by
  unfold fmtHM
  simp [List.append_assoc]

lemma colon_not_mem_fmt2 (n : ℕ) : ':' ∉ fmt2 n :=
  fun h => isDigit_ne_colon (fmt2_all_digit n _ h) rfl

lemma plus_not_mem_fmt2 (n : ℕ) : '+' ∉ fmt2 n :=
  fun h => isDigit_ne_plus (fmt2_all_digit n _ h) rfl

lemma dash_not_mem_fmt2 (n : ℕ) : '-' ∉ fmt2 n :=
  fun h => isDigit_ne_dash (fmt2_all_digit n _ h) rfl

lemma plus_not_mem_fmtHM (t : ℤ) : '+' ∉ fmtHM t := by
  intro h
  rcases mem_fmtHM h with h | h
  · exact isDigit_ne_plus h rfl
  · exact absurd h (by decide)

lemma dash_not_mem_fmtHM (t : ℤ) : '-' ∉ fmtHM t := by
  intro h
  rcases mem_fmtHM h with h | h
  · exact isDigit_ne_dash h rfl
  · exact absurd h (by decide)

lemma parseHM_fmtHM (t : ℤ) :
    parseHM (fmtHM t) =
      some ((t % 1440).toNat / 60, (t % 1440).toNat % 60) := by
  have hsplit : splitOnChar ':' (fmtHM t) =
      [fmt2 ((t % 1440).toNat / 60), fmt2 ((t % 1440).toNat % 60)] := by
    rw [fmtHM_eq]
    exact splitOnChar_pair (colon_not_mem_fmt2 _) (colon_not_mem_fmt2 _)
  simp only [parseHM, hsplit, parseNat_fmt2]

lemma dash_not_mem_endpoint (t : ℤ) (off : ℕ) :
    '-' ∉ fmtHM t ++ '+' :: fmt2 off := by
  intro h
  rcases List.mem_append.1 h with h | h
  · exact dash_not_mem_fmtHM t h
  · rcases List.mem_cons.1 h with h | h
    · exact absurd h (by decide)
    · exact dash_not_mem_fmt2 off h

lemma parsePart_fmt (t : ℤ) (off : ℕ) :
    parsePart (fmtHM t ++ '+' :: fmt2 off) = some (fmtHM t, off) := by
  unfold parsePart
  rw [if_pos (List.mem_append.2 (Or.inr (List.mem_cons_self _ _)))]
  rw [splitOnChar_pair (plus_not_mem_fmtHM t) (plus_not_mem_fmt2 off)]
  simp [parseNat_fmt2]

lemma format_time_range_eq (start_idx end_idx : ℕ) (base_time : ℤ) :
    _format_time_range start_idx end_idx base_time =
      (fmtHM (base_time + 15 * start_idx) ++ '+'
          :: fmt2 (((base_time + 15 * start_idx) / 1440
            - base_time / 1440).toNat))
        ++ '-' :: (fmtHM (base_time + 15 * (end_idx + 1)) ++ '+'
          :: fmt2 (((base_time + 15 * (end_idx + 1)) / 1440
            - base_time / 1440).toNat)) := by
  unfold _format_time_range
  simp [List.append_assoc]

/-! ## Claim C2: encode→decode round-trip -/

/-- C2: for every index range `[start_idx, end_idx]` and midnight base time
`B`, encoding with `_format_time_range` and decoding with
`parse_time_range_to_timestamps` (reference date `B`) yields exactly
`(B + 15·start_idx, B + 15·(end_idx+1))` minutes. -/
theorem C2_encode_decode_roundtrip :
    ∀ (start_idx end_idx : ℕ) (B : ℤ),
      start_idx ≤ end_idx → B % 1440 = 0 →
      parse_time_range_to_timestamps
          (_format_time_range start_idx end_idx B) B =
        some (B + 15 * start_idx, B + 15 * (end_idx + 1)) := by
  intro s e B hse hB
  rw [format_time_range_eq]
  have hplus : '+' ∈ (fmtHM (B + 15 * s) ++ '+'
      :: fmt2 (((B + 15 * s) / 1440 - B / 1440).toNat))
        ++ '-' :: (fmtHM (B + 15 * ((e : ℤ) + 1)) ++ '+'
      :: fmt2 (((B + 15 * ((e : ℤ) + 1)) / 1440 - B / 1440).toNat)) :=
    List.mem_append.2 (Or.inl (List.mem_append.2
      (Or.inr (List.mem_cons_self _ _))))
  unfold parse_time_range_to_timestamps
  rw [splitOnChar_pair (dash_not_mem_endpoint _ _) (dash_not_mem_endpoint _ _)]
  dsimp only
  rw [parsePart_fmt, parsePart_fmt]
  dsimp only
  rw [parseHM_fmtHM, parseHM_fmtHM]
  dsimp only
  rw [if_pos ⟨by omega, by omega, by omega, by omega⟩,
    if_neg (fun hc => hc.1 hplus)]
  simp only [Option.some.injEq, Prod.mk.injEq]
  constructor <;> omega

/-! ## Claim C5: legacy overnight adjustment -/

/-- The full parser agrees with the no-adjustment variant except that one
day is added to the end instant exactly when no `+` occurs anywhere in the
input and the raw end instant is ≤ the raw start instant. -/
lemma parse_legacy_adjust_characterization
    (time_range : List Char) (reference_date : ℤ) (st en : ℤ)
    (h : parseTimeRangeNoLegacyAdjust time_range reference_date =
      some (st, en)) :
    parse_time_range_to_timestamps time_range reference_date =
      some (st, if '+' ∉ time_range ∧ en ≤ st then en + 1440 else en) := by
  unfold parseTimeRangeNoLegacyAdjust at h
  unfold parse_time_range_to_timestamps
  cases h1 : splitOnChar '-' time_range with
  | nil => rw [h1] at h; simp at h
  | cons a t =>
    cases t with
    | nil => rw [h1] at h; simp at h
    | cons b t' =>
      cases t' with
      | cons c t'' => rw [h1] at h; simp at h
      | nil =>
        rw [h1] at h
        dsimp only at h ⊢
        cases h2 : parsePart a with
        | none => rw [h2] at h; simp at h
        | some pa =>
          obtain ⟨a1, d1⟩ := pa
          cases h3 : parsePart b with
          | none => rw [h2, h3] at h; simp at h
          | some pb =>
            obtain ⟨b1, d2⟩ := pb
            rw [h2, h3] at h
            dsimp only at h ⊢
            cases h4 : parseHM a1 with
            | none => rw [h4] at h; simp at h
            | some ha1 =>
              obtain ⟨h1', m1⟩ := ha1
              cases h5 : parseHM b1 with
              | none => rw [h4, h5] at h; simp at h
              | some hb1 =>
                obtain ⟨h2', m2⟩ := hb1
                rw [h4, h5] at h
                dsimp only at h ⊢
                by_cases hbnd : h1' ≤ 23 ∧ m1 ≤ 59 ∧ h2' ≤ 23 ∧ m2 ≤ 59
                · rw [if_pos hbnd] at h ⊢
                  rw [Option.some.injEq, Prod.mk.injEq] at h
                  obtain ⟨hst, hen⟩ := h
                  subst hst
                  subst hen
                  by_cases hc : '+' ∉ time_range ∧
                      reference_date - reference_date % 1440 + 60 * h2' + m2
                          + 1440 * d2 ≤
                        reference_date - reference_date % 1440 + 60 * h1' + m1
                          + 1440 * d1
                  · rw [if_pos hc, if_pos hc]
                  · rw [if_neg hc, if_neg hc]
                · rw [if_neg hbnd] at h
                  simp at h

/-- C5: decoding `"23:00-01:00"` against a reference date lands the end on
the next day; decoding `"04:00+00-05:15+00"` does not; and in general one
day is added to the decoded end instant exactly when no `+` occurs anywhere
in the input and the raw decoded end is ≤ the raw decoded start. -/
theorem C5_legacy_overnight_adjustment :
    (∀ r : ℤ, parse_time_range_to_timestamps ("23:00-01:00".toList) r =
      some ((r - r % 1440) + 23 * 60, (r - r % 1440) + 1440 + 60)) ∧
    (∀ r : ℤ, parse_time_range_to_timestamps ("04:00+00-05:15+00".toList) r =
      some ((r - r % 1440) + 4 * 60, (r - r % 1440) + 5 * 60 + 15)) ∧
    (∀ (time_range : List Char) (reference_date st en : ℤ),
      parseTimeRangeNoLegacyAdjust time_range reference_date =
        some (st, en) →
      parse_time_range_to_timestamps time_range reference_date =
        some (st, if '+' ∉ time_range ∧ en ≤ st then en + 1440 else en)) := by
  refine ⟨?_, ?_, parse_legacy_adjust_characterization⟩
  · intro r
    have hnl : parseTimeRangeNoLegacyAdjust ("23:00-01:00".toList) r =
        some ((r - r % 1440) + 60 * (23 : ℕ) + (0 : ℕ) + 1440 * (0 : ℕ),
          (r - r % 1440) + 60 * (1 : ℕ) + (0 : ℕ) + 1440 * (0 : ℕ)) := by
      unfold parseTimeRangeNoLegacyAdjust
      rw [show splitOnChar '-' ("23:00-01:00".toList) =
        ["23:00".toList, "01:00".toList] from by decide]
      dsimp only
      rw [show parsePart ("23:00".toList) = some ("23:00".toList, 0) from
          by decide,
        show parsePart ("01:00".toList) = some ("01:00".toList, 0) from
          by decide]
      dsimp only
      rw [show parseHM ("23:00".toList) = some (23, 0) from by decide,
        show parseHM ("01:00".toList) = some (1, 0) from by decide]
      dsimp only
      rw [if_pos (by norm_num)]
    rw [parse_legacy_adjust_characterization _ _ _ _ hnl,
      if_pos ⟨by decide, by omega⟩]
    simp only [Option.some.injEq, Prod.mk.injEq]
    constructor <;> push_cast <;> omega
  · intro r
    have hnl : parseTimeRangeNoLegacyAdjust ("04:00+00-05:15+00".toList) r =
        some ((r - r % 1440) + 60 * (4 : ℕ) + (0 : ℕ) + 1440 * (0 : ℕ),
          (r - r % 1440) + 60 * (5 : ℕ) + (15 : ℕ) + 1440 * (0 : ℕ)) := by
      unfold parseTimeRangeNoLegacyAdjust
      rw [show splitOnChar '-' ("04:00+00-05:15+00".toList) =
        ["04:00+00".toList, "05:15+00".toList] from by decide]
      dsimp only
      rw [show parsePart ("04:00+00".toList) = some ("04:00".toList, 0) from
          by decide,
        show parsePart ("05:15+00".toList) = some ("05:15".toList, 0) from
          by decide]
      dsimp only
      rw [show parseHM ("04:00".toList) = some (4, 0) from by decide,
        show parseHM ("05:15".toList) = some (5, 15) from by decide]
      dsimp only
      rw [if_pos (by norm_num)]
    rw [parse_legacy_adjust_characterization _ _ _ _ hnl,
      if_neg (fun hc => hc.1 (by decide))]
    simp only [Option.some.injEq, Prod.mk.injEq]
    constructor <;> push_cast <;> omega

/-- Closed instance of C5: the no-adjustment parse of `"23:00-01:00"` at
reference 0 decodes to `(1380, 60)`, and the full parser adds a day to the
end. -/
theorem C5_witness :
    parse_time_range_to_timestamps ("23:00-01:00".toList) 0 =
      some (1380, if '+' ∉ ("23:00-01:00".toList) ∧ (60 : ℤ) ≤ 1380
        then 60 + 1440 else 60) :=
  C5_legacy_overnight_adjustment.2.2 ("23:00-01:00".toList) 0 1380 60
    (by decide)

/-- Closed instance of C2: the range `[92, 99]` (23:00 to 01:00 next day)
encoded against midnight at minute 2880 decodes back to the same
instants. -/
theorem C2_witness :
    parse_time_range_to_timestamps (_format_time_range 92 99 2880) 2880 =
      some ((2880 : ℤ) + 15 * ((92 : ℕ) : ℤ), (2880 : ℤ) + 15 * (((99 : ℕ) : ℤ) + 1)) :=
  C2_encode_decode_roundtrip 92 99 2880 (by decide) (by decide)

/-! ## Claim C9: lowest-price window -/

/-- The scanning fold of `get_lowest_price_period` computes the earliest
window of minimal mean among the first `W` windows. -/
lemma lowest_fold_spec (l : List PriceEntry) (d : ℕ) :
    ∀ W : ℕ, W ≠ 0 →
      ∃ j, j < W ∧ (∀ k < W, windowAvg l d j ≤ windowAvg l d k) ∧
        (∀ k < j, windowAvg l d j < windowAvg l d k) ∧
        (List.range W).foldl
          (fun acc i =>
            match acc with
            | none => some (windowAvg l d i, mkPeriod l d i)
            | some (lowest_avg, lowest_period) =>
              if windowAvg l d i < lowest_avg then
                some (windowAvg l d i, mkPeriod l d i)
              else some (lowest_avg, lowest_period))
          none = some (windowAvg l d j, mkPeriod l d j) := by
  intro W
  induction W with
  | zero => intro h; exact absurd rfl h
  | succ W ih =>
    intro _
    rw [List.range_succ, List.foldl_append]
    by_cases hW : W = 0
    · subst hW
      refine ⟨0, by omega, ?_, by omega, rfl⟩
      intro k hk
      interval_cases k
      exact le_refl _
    · obtain ⟨j, hj, hmin, hstrict, hfold⟩ := ih hW
      rw [hfold]
      simp only [List.foldl_cons, List.foldl_nil]
      by_cases hlt : windowAvg l d W < windowAvg l d j
      · rw [if_pos hlt]
        refine ⟨W, by omega, ?_, ?_, rfl⟩
        · intro k hk
          rcases Nat.lt_succ_iff_lt_or_eq.1 hk with hk | rfl
          · exact le_of_lt (lt_of_lt_of_le hlt (hmin k hk))
          · exact le_refl _
        · intro k hk
          exact lt_of_lt_of_le hlt (hmin k hk)
      · rw [if_neg hlt]
        refine ⟨j, by omega, ?_, hstrict, rfl⟩
        intro k hk
        rcases Nat.lt_succ_iff_lt_or_eq.1 hk with hk | rfl
        · exact hmin k hk
        · exact not_lt.1 hlt

/-- C9: `get_lowest_price_period` returns `none` on an empty list, a
duration below one hour, or a list shorter than the window; otherwise it
returns the window of `duration_hours` consecutive entries with the lowest
mean, the earliest such window winning ties. -/
theorem C9_lowest_price_period :
    ∀ (price_list : List PriceEntry) (duration_hours : ℤ),
      ((price_list = [] ∨ duration_hours < 1 ∨
          (price_list.length : ℤ) < duration_hours) →
        get_lowest_price_period price_list duration_hours = none) ∧
      (price_list ≠ [] → 1 ≤ duration_hours →
        duration_hours ≤ (price_list.length : ℤ) →
        ∃ j, j < ((price_list.length : ℤ) - duration_hours + 1).toNat ∧
          (∀ k < ((price_list.length : ℤ) - duration_hours + 1).toNat,
            windowAvg price_list duration_hours.toNat j ≤
              windowAvg price_list duration_hours.toNat k) ∧
          (∀ k < j, windowAvg price_list duration_hours.toNat j <
            windowAvg price_list duration_hours.toNat k) ∧
          get_lowest_price_period price_list duration_hours =
            some (mkPeriod price_list duration_hours.toNat j)) := by
  intro l d
  constructor
  · intro hdeg
    unfold get_lowest_price_period
    by_cases h1 : l = [] ∨ d < 1
    · rw [if_pos h1]
    · rw [if_neg h1]
      push_neg at h1
      have hlen : ((l.length : ℤ) - d + 1).toNat = 0 := by
        rcases hdeg with h | h | h
        · exact absurd h h1.1
        · omega
        · omega
      rw [hlen]
      simp
  · intro hne h1 h2
    unfold get_lowest_price_period
    rw [if_neg (by push_neg; exact ⟨hne, by omega⟩)]
    have hW : ((l.length : ℤ) - d + 1).toNat ≠ 0 := by omega
    obtain ⟨j, hj, hmin, hstrict, hfold⟩ :=
      lowest_fold_spec l d.toNat ((l.length : ℤ) - d + 1).toNat hW
    refine ⟨j, hj, hmin, hstrict, ?_⟩
    simp only [hfold]
    rfl

/-- Closed instance of C9: on a three-entry list with values 5, 1, 3 and
window 1, the earliest minimal window is index 1. -/
theorem C9_witness :
    get_lowest_price_period
        [⟨some 0, some 60, some 5⟩, ⟨some 60, some 120, some 1⟩,
          ⟨some 120, some 180, some 3⟩] 1 =
      some (mkPeriod [⟨some 0, some 60, some 5⟩, ⟨some 60, some 120, some 1⟩,
        ⟨some 120, some 180, some 3⟩] 1 1) := by
  obtain ⟨j, hj, hmin, hstrict, heq⟩ :=
    (C9_lowest_price_period
      [⟨some 0, some 60, some 5⟩, ⟨some 60, some 120, some 1⟩,
        ⟨some 120, some 180, some 3⟩] 1).2
      (by decide) (by decide) (by decide)
  have ha0 : windowAvg [⟨some 0, some 60, some 5⟩, ⟨some 60, some 120, some 1⟩,
      ⟨some 120, some 180, some 3⟩] (Int.toNat 1) 0 = 5 := by
    simp [windowAvg, window]
  have ha1 : windowAvg [⟨some 0, some 60, some 5⟩, ⟨some 60, some 120, some 1⟩,
      ⟨some 120, some 180, some 3⟩] (Int.toNat 1) 1 = 1 := by
    simp [windowAvg, window]
  have ha2 : windowAvg [⟨some 0, some 60, some 5⟩, ⟨some 60, some 120, some 1⟩,
      ⟨some 120, some 180, some 3⟩] (Int.toNat 1) 2 = 3 := by
    simp [windowAvg, window]
  have hj3 : j < 3 := by simpa using hj
  have hj1 : j = 1 := by
    interval_cases j
    · exfalso
      have := hmin 1 (by norm_num)
      rw [ha0, ha1] at this
      norm_num at this
    · rfl
    · exfalso
      have := hmin 1 (by norm_num)
      have h2 := hstrict 1 (by norm_num)
      rw [ha2, ha1] at h2
      norm_num at h2
  rw [hj1] at heq
  exact heq
